import Mathlib

/-!
# Verification of the synthetic-data compositing engine (`solar_snippet_v4.py`)

Shallow embedding of the compositing pipeline of the Solar_France repository:
connected-component analysis (`find_largest_white_patch`,
`find_random_white_patch`), patch extraction (`crop_solar_panel`), orientation
estimation (`find_angle`), compositing (`paste_solar_panel`, `modify_images`)
and the batch orchestration (`ImageProcessor.process_sample_images`,
`ImageProcessor.process_all_images`).

Modelling conventions:
* An image or mask is a `Grid`: a width, a height, and a pixel function
  `Int → Int → Nat`; reads outside the bounds yield 0 (`pixel`), matching both
  numpy out-of-range semantics at the places the code relies on them and PIL's
  black padding for out-of-canvas crops.
* `scipy.ndimage.label` (default structuring element, i.e. 4-connectivity,
  components numbered in raster order of their first pixel) is modelled by
  `compsList`: the list of connected components of the nonzero pixels, in
  raster order of first occurrence; label `i+1` corresponds to index `i`.
* `random.randint(a, b)` is modelled by `a + seed % (b - a + 1)` for a caller
  supplied seed, and `np.random.choice(candidates, p=...)` by indexing the
  candidate list with `seed % length`: each models an arbitrary draw from the
  same outcome set as the Python call.
* The PIL rotation / photometric-perturbation / zoom stage of
  `paste_solar_panel` (lines 154-202 of the source) is floating-point image
  resampling; it is modelled by the caller-supplied transformations
  `transImg`, `transMask` applied at exactly the source position in the
  pipeline.  Theorems quantify over these transformations, so they hold for
  whatever grids the PIL stage actually produces; counterexamples instantiate
  them with concrete realizable outcomes (e.g. the identity, realizable as
  rotation by 0 degrees with no zoom).
* `PIL.Image.paste(src, (px, py), mask=stencil)` is used by the code only with
  a stencil that was just re-binarized to {0, 255}; on such stencils paste
  copies the source pixel where the stencil is 255 and keeps the target pixel
  where it is 0, which is what `pasteSt` does.
-/

/-- A raster image or mask: dimensions plus a pixel function.  Pixel values are
natural numbers (uint8 values 0..255 in the deployment). -/
structure Grid where
  w : Nat
  h : Nat
  pix : Int → Int → Nat

/-- Bounds-checked pixel read: 0 outside the canvas. -/
def pixel (g : Grid) (x y : Int) : Nat :=
  if 0 ≤ x ∧ x < (g.w : Int) ∧ 0 ≤ y ∧ y < (g.h : Int) then g.pix x y else 0

/-- Build a grid from a pixel function. -/
def ofFn (w h : Nat) (f : Int → Int → Nat) : Grid := ⟨w, h, f⟩

/-- The all-black default grid (used for out-of-range pool reads). -/
def gdefault : Grid := ofFn 0 0 fun _ _ => 0

/-- All-zero (black) grid. -/
def zeroG (w h : Nat) : Grid := ofFn w h fun _ _ => 0

/-- Grid with a single white (255) pixel at `(px, py)`. -/
def oneWhite (w h px py : Nat) : Grid :=
  ofFn w h fun x y => if x = (px : Int) ∧ y = (py : Int) then 255 else 0

/-- All-white (255) grid. -/
def allWhite (w h : Nat) : Grid := ofFn w h fun _ _ => 255

/-- Number of pixels whose value is exactly 255 (`np.sum(mask_np == 255)`). -/
def whiteCount (g : Grid) : Nat :=
  (((Finset.range g.w) ×ˢ (Finset.range g.h)).filter
    (fun p => pixel g (p.1 : Int) (p.2 : Int) = 255)).card

/-- Sum of all pixel values (`np.sum(mask)`). -/
def sumGrid (g : Grid) : Nat :=
  ∑ p ∈ (Finset.range g.w) ×ˢ (Finset.range g.h), pixel g (p.1 : Int) (p.2 : Int)

/-- Binarization `arr[arr > 0] = 255` applied to a mask. -/
def binarizeNZ (g : Grid) : Grid :=
  ofFn g.w g.h fun x y => if 0 < pixel g x y then 255 else 0

theorem pixel_ofFn (w h : Nat) (f : Int → Int → Nat) (x y : Int) :
    pixel (ofFn w h f) x y =
      if 0 ≤ x ∧ x < (w : Int) ∧ 0 ≤ y ∧ y < (h : Int) then f x y else 0 := rfl

theorem ofFn_w (w h : Nat) (f : Int → Int → Nat) : (ofFn w h f).w = w := rfl

theorem ofFn_h (w h : Nat) (f : Int → Int → Nat) : (ofFn w h f).h = h := rfl

/-- A pixel that reads 255 is inside the canvas. -/
theorem pixel_eq_255_bounds (g : Grid) (x y : Int) (h : pixel g x y = 255) :
    0 ≤ x ∧ x < (g.w : Int) ∧ 0 ≤ y ∧ y < (g.h : Int) := by
  by_contra hc
  simp only [pixel, if_neg hc] at h
  exact absurd h (by omega)

theorem sumGrid_eq_zero_iff (g : Grid) :
    sumGrid g = 0 ↔ ∀ p ∈ (Finset.range g.w) ×ˢ (Finset.range g.h),
      pixel g (p.1 : Int) (p.2 : Int) = 0 := by
  simp [sumGrid, Finset.sum_eq_zero_iff]

/-! ## Connected components (`scipy.ndimage.label`)

`ndi.label(mask)` labels the 4-connected components of the nonzero pixels of
`mask`, numbering them 1.. in raster order of their first pixel.  We model its
output by `compsList`: the list of components (as finite pixel sets, pixels
being `(x, y)` pairs) in that order; `num_features` is the list's length and
`np.bincount(labeled.flat)[1:]` is `patchSizes`. -/

/-- The set of foreground (nonzero) pixels of a grid, as `(x, y)` pairs. -/
def fgSet (g : Grid) : Finset (Nat × Nat) :=
  ((Finset.range g.w) ×ˢ (Finset.range g.h)).filter
    (fun p => pixel g (p.1 : Int) (p.2 : Int) ≠ 0)

/-- 4-adjacency of pixels (the default scipy structuring element). -/
def adj4 (p q : Nat × Nat) : Prop :=
  (p.1 = q.1 ∧ (p.2 = q.2 + 1 ∨ q.2 = p.2 + 1)) ∨
  (p.2 = q.2 ∧ (p.1 = q.1 + 1 ∨ q.1 = p.1 + 1))

instance (p q : Nat × Nat) : Decidable (adj4 p q) := by
  unfold adj4; infer_instance

/-- One step of region growing: all pixels of `S` that are in `C` or adjacent
to a pixel of `C`. -/
def growOnce (S C : Finset (Nat × Nat)) : Finset (Nat × Nat) :=
  S.filter fun p => p ∈ C ∨ ∃ q ∈ C, adj4 p q

/-- Iterated region growing. -/
def growIter (S : Finset (Nat × Nat)) (n : Nat) (C : Finset (Nat × Nat)) :
    Finset (Nat × Nat) :=
  (growOnce S)^[n] C

/-- The connected component of `p` within the pixel set `S`: grow from `{p}`
for `S.card` steps (enough for any component of `S` to be saturated). -/
def component (S : Finset (Nat × Nat)) (p : Nat × Nat) : Finset (Nat × Nat) :=
  growIter S S.card {p}

/-- All pixel positions of a `w × h` canvas in raster (row-major) order. -/
def rasterPixels (w h : Nat) : List (Nat × Nat) :=
  (List.range h).flatMap fun y => (List.range w).map fun x => (x, y)

/-- One step of the raster labeling scan: when hitting a foreground pixel not
yet covered by a discovered component, append its component. -/
def compsStep (S : Finset (Nat × Nat)) (acc : List (Finset (Nat × Nat)))
    (p : Nat × Nat) : List (Finset (Nat × Nat)) :=
  if p ∈ S ∧ ∀ C ∈ acc, p ∉ C then acc ++ [component S p] else acc

/-- The connected components of the nonzero pixels of `g`, in raster order of
first occurrence.  Component of label `i+1` (scipy numbering) is entry `i`. -/
def compsList (g : Grid) : List (Finset (Nat × Nat)) :=
  (rasterPixels g.w g.h).foldl (compsStep (fgSet g)) []

/-- `np.bincount(mask_labeled.flat)[1:]`: the component sizes, by label. -/
def patchSizes (g : Grid) : List Nat := (compsList g).map Finset.card

theorem growOnce_subset (S C : Finset (Nat × Nat)) : growOnce S C ⊆ S :=
  Finset.filter_subset _ _

theorem subset_growOnce (S C : Finset (Nat × Nat)) (hCS : C ⊆ S) :
    C ⊆ growOnce S C := by
  intro p hp
  exact Finset.mem_filter.mpr ⟨hCS hp, Or.inl hp⟩

theorem growIter_succ (S : Finset (Nat × Nat)) (n : Nat) (C : Finset (Nat × Nat)) :
    growIter S (n + 1) C = growOnce S (growIter S n C) := by
  simp [growIter, Function.iterate_succ_apply']

theorem growIter_subset (S C : Finset (Nat × Nat)) (hCS : C ⊆ S) (n : Nat) :
    growIter S n C ⊆ S := by
  induction n with
  | zero => exact hCS
  | succ k ih => rw [growIter_succ]; exact growOnce_subset _ _

theorem subset_growIter (S C : Finset (Nat × Nat)) (hCS : C ⊆ S) (n : Nat) :
    C ⊆ growIter S n C := by
  induction n with
  | zero => exact Finset.Subset.refl _
  | succ k ih =>
    rw [growIter_succ]
    exact ih.trans (subset_growOnce S _ (growIter_subset S C hCS k))

theorem mem_component_self (S : Finset (Nat × Nat)) (p : Nat × Nat)
    (hp : p ∈ S) : p ∈ component S p :=
  subset_growIter S {p} (Finset.singleton_subset_iff.mpr hp) S.card (Finset.mem_singleton_self p)

theorem component_subset (S : Finset (Nat × Nat)) (p : Nat × Nat)
    (hp : p ∈ S) : component S p ⊆ S :=
  growIter_subset S {p} (Finset.singleton_subset_iff.mpr hp) S.card

theorem mem_rasterPixels (w h : Nat) (p : Nat × Nat) :
    p ∈ rasterPixels w h ↔ p.1 < w ∧ p.2 < h := by
  obtain ⟨x, y⟩ := p
  simp only [rasterPixels, List.mem_flatMap, List.mem_map, List.mem_range]
  constructor
  · rintro ⟨y', hy', x', hx', he⟩
    obtain ⟨rfl, rfl⟩ := Prod.mk.injEq .. ▸ And.intro (congrArg Prod.fst he) (congrArg Prod.snd he)
    exact ⟨hx', hy'⟩
  · rintro ⟨hx, hy⟩
    exact ⟨y, hy, x, hx, rfl⟩

theorem fgSet_mem_raster (g : Grid) (p : Nat × Nat) (hp : p ∈ fgSet g) :
    p ∈ rasterPixels g.w g.h := by
  rw [mem_rasterPixels]
  have := Finset.mem_filter.mp hp
  have := Finset.mem_product.mp this.1
  exact ⟨Finset.mem_range.mp this.1, Finset.mem_range.mp this.2⟩

/-- Accumulated components are preserved by the rest of the scan. -/
theorem foldl_compsStep_mem (S : Finset (Nat × Nat)) (l : List (Nat × Nat)) :
    ∀ (acc : List (Finset (Nat × Nat))) (C : Finset (Nat × Nat)), C ∈ acc →
      C ∈ l.foldl (compsStep S) acc := by
  induction l with
  | nil => intro acc C hC; exact hC
  | cons a t ih =>
    intro acc C hC
    refine ih _ C ?_
    unfold compsStep
    split
    · exact List.mem_append_left _ hC
    · exact hC

/-- Every foreground pixel that the scan visits ends up in some component. -/
theorem foldl_compsStep_covers (S : Finset (Nat × Nat)) (l : List (Nat × Nat)) :
    ∀ (acc : List (Finset (Nat × Nat))) (p : Nat × Nat), p ∈ l → p ∈ S →
      ∃ C ∈ l.foldl (compsStep S) acc, p ∈ C := by
  induction l with
  | nil => intro acc p hpl; exact absurd hpl (List.not_mem_nil p)
  | cons a t ih =>
    intro acc p hpl hpS
    rcases List.mem_cons.mp hpl with rfl | hpt
    · by_cases hcov : ∃ C ∈ acc, p ∈ C
      · obtain ⟨C, hC, hpC⟩ := hcov
        refine ⟨C, ?_, hpC⟩
        exact foldl_compsStep_mem S t _ C (by
          unfold compsStep
          split
          · exact List.mem_append_left _ hC
          · exact hC)
      · have hstep : compsStep S acc p = acc ++ [component S p] := by
          unfold compsStep
          rw [if_pos]
          exact ⟨hpS, fun C hC hpC => hcov ⟨C, hC, hpC⟩⟩
        refine ⟨component S p, ?_, mem_component_self S p hpS⟩
        refine foldl_compsStep_mem S t _ _ ?_
        rw [hstep]
        exact List.mem_append_right _ (List.mem_singleton_self _)
    · exact ih _ p hpt hpS

/-- Every foreground pixel belongs to some labeled component. -/
theorem fgSet_covered (g : Grid) (p : Nat × Nat) (hp : p ∈ fgSet g) :
    ∃ C ∈ compsList g, p ∈ C := by
  have hfg : p ∈ fgSet g := hp
  exact foldl_compsStep_covers (fgSet g) _ [] p (fgSet_mem_raster g p hp) hfg

/-- Every labeled component is nonempty and contained in the foreground. -/
theorem compsList_sound (g : Grid) :
    ∀ C ∈ compsList g, C.Nonempty ∧ C ⊆ fgSet g := by
  suffices h : ∀ (l : List (Nat × Nat)) (acc : List (Finset (Nat × Nat))),
      (∀ C ∈ acc, C.Nonempty ∧ C ⊆ fgSet g) →
      ∀ C ∈ l.foldl (compsStep (fgSet g)) acc, C.Nonempty ∧ C ⊆ fgSet g by
    exact h _ [] (by simp)
  intro l
  induction l with
  | nil => intro acc hacc; exact hacc
  | cons a t ih =>
    intro acc hacc
    refine ih _ ?_
    intro C hC
    unfold compsStep at hC
    split at hC
    · rcases List.mem_append.mp hC with h1 | h2
      · exact hacc C h1
      · rw [List.mem_singleton.mp h2]
        rename_i hcond
        exact ⟨⟨a, mem_component_self _ a hcond.1⟩, component_subset _ a hcond.1⟩
    · exact hacc C hC

/-! ## Bounding box, centroid, argmax -/

/-- Minimum x-coordinate of a pixel set (`np.min(pixels[1])`); 0 on ∅. -/
def minFst (s : Finset (Nat × Nat)) : Nat :=
  if h : (s.image Prod.fst).Nonempty then (s.image Prod.fst).min' h else 0

/-- Maximum x-coordinate of a pixel set (`np.max(pixels[1])`); 0 on ∅. -/
def maxFst (s : Finset (Nat × Nat)) : Nat :=
  if h : (s.image Prod.fst).Nonempty then (s.image Prod.fst).max' h else 0

/-- Minimum y-coordinate of a pixel set (`np.min(pixels[0])`); 0 on ∅. -/
def minSnd (s : Finset (Nat × Nat)) : Nat :=
  if h : (s.image Prod.snd).Nonempty then (s.image Prod.snd).min' h else 0

/-- Maximum y-coordinate of a pixel set (`np.max(pixels[0])`); 0 on ∅. -/
def maxSnd (s : Finset (Nat × Nat)) : Nat :=
  if h : (s.image Prod.snd).Nonempty then (s.image Prod.snd).max' h else 0

/-- `bounding_box = (np.min(px[1]), np.min(px[0]), np.max(px[1]), np.max(px[0]))`:
`(x_min, y_min, x_max, y_max)` of a pixel set. -/
def bboxOf (s : Finset (Nat × Nat)) : Nat × Nat × Nat × Nat :=
  (minFst s, minSnd s, maxFst s, maxSnd s)

/-- `np.mean(np.column_stack(pixels), axis=0).astype(np.int32)`: the centroid
as `(mean row, mean col)` with truncation (floor, values being nonnegative). -/
def centerOf (s : Finset (Nat × Nat)) : Nat × Nat :=
  ((∑ p ∈ s, p.2) / s.card, (∑ p ∈ s, p.1) / s.card)

theorem minFst_le (s : Finset (Nat × Nat)) (p : Nat × Nat) (hp : p ∈ s) :
    minFst s ≤ p.1 := by
  have hne : (s.image Prod.fst).Nonempty := ⟨p.1, Finset.mem_image_of_mem _ hp⟩
  rw [minFst, dif_pos hne]
  exact Finset.min'_le _ _ (Finset.mem_image_of_mem _ hp)

theorem le_maxFst (s : Finset (Nat × Nat)) (p : Nat × Nat) (hp : p ∈ s) :
    p.1 ≤ maxFst s := by
  have hne : (s.image Prod.fst).Nonempty := ⟨p.1, Finset.mem_image_of_mem _ hp⟩
  rw [maxFst, dif_pos hne]
  exact Finset.le_max' _ _ (Finset.mem_image_of_mem _ hp)

theorem minSnd_le (s : Finset (Nat × Nat)) (p : Nat × Nat) (hp : p ∈ s) :
    minSnd s ≤ p.2 := by
  have hne : (s.image Prod.snd).Nonempty := ⟨p.2, Finset.mem_image_of_mem _ hp⟩
  rw [minSnd, dif_pos hne]
  exact Finset.min'_le _ _ (Finset.mem_image_of_mem _ hp)

theorem le_maxSnd (s : Finset (Nat × Nat)) (p : Nat × Nat) (hp : p ∈ s) :
    p.2 ≤ maxSnd s := by
  have hne : (s.image Prod.snd).Nonempty := ⟨p.2, Finset.mem_image_of_mem _ hp⟩
  rw [maxSnd, dif_pos hne]
  exact Finset.le_max' _ _ (Finset.mem_image_of_mem _ hp)

theorem minFst_mem (s : Finset (Nat × Nat)) (hs : s.Nonempty) :
    ∃ p ∈ s, p.1 = minFst s := by
  have hne : (s.image Prod.fst).Nonempty := hs.image _
  rw [minFst, dif_pos hne]
  obtain ⟨p, hp, he⟩ := Finset.mem_image.mp ((s.image Prod.fst).min'_mem hne)
  exact ⟨p, hp, he⟩

theorem maxFst_mem (s : Finset (Nat × Nat)) (hs : s.Nonempty) :
    ∃ p ∈ s, p.1 = maxFst s := by
  have hne : (s.image Prod.fst).Nonempty := hs.image _
  rw [maxFst, dif_pos hne]
  obtain ⟨p, hp, he⟩ := Finset.mem_image.mp ((s.image Prod.fst).max'_mem hne)
  exact ⟨p, hp, he⟩

theorem minSnd_mem (s : Finset (Nat × Nat)) (hs : s.Nonempty) :
    ∃ p ∈ s, p.2 = minSnd s := by
  have hne : (s.image Prod.snd).Nonempty := hs.image _
  rw [minSnd, dif_pos hne]
  obtain ⟨p, hp, he⟩ := Finset.mem_image.mp ((s.image Prod.snd).min'_mem hne)
  exact ⟨p, hp, he⟩

theorem maxSnd_mem (s : Finset (Nat × Nat)) (hs : s.Nonempty) :
    ∃ p ∈ s, p.2 = maxSnd s := by
  have hne : (s.image Prod.snd).Nonempty := hs.image _
  rw [maxSnd, dif_pos hne]
  obtain ⟨p, hp, he⟩ := Finset.mem_image.mp ((s.image Prod.snd).max'_mem hne)
  exact ⟨p, hp, he⟩

/-- `np.argmax`: index of the first occurrence of the maximum value. -/
def argmaxIdx (l : List Nat) : Nat :=
  l.findIdx fun v => l.all fun u => u ≤ v

theorem exists_list_max (l : List Nat) (hl : l ≠ []) :
    ∃ v ∈ l, ∀ u ∈ l, u ≤ v := by
  induction l with
  | nil => exact absurd rfl hl
  | cons a t ih =>
    cases t with
    | nil => exact ⟨a, List.mem_singleton_self a, by simp⟩
    | cons b t' =>
      obtain ⟨v, hv, hmax⟩ := ih (by simp)
      by_cases hav : a ≤ v
      · refine ⟨v, List.mem_cons_of_mem a hv, ?_⟩
        intro u hu
        rcases List.mem_cons.mp hu with rfl | hu'
        · exact hav
        · exact hmax u hu'
      · refine ⟨a, List.mem_cons_self a _, ?_⟩
        intro u hu
        rcases List.mem_cons.mp hu with rfl | hu'
        · exact le_refl _
        · exact (hmax u hu').trans (le_of_not_le hav)

theorem findIdx_getD_spec (l : List Nat) (p : Nat → Bool) (h : l.findIdx p < l.length) :
    p (l.getD (l.findIdx p) 0) = true := by
  induction l with
  | nil => simp at h
  | cons a t ih =>
    by_cases hpa : p a
    · have h0 : (a :: t).findIdx p = 0 := by rw [List.findIdx_cons, hpa, cond_true]
      rw [h0]
      simpa using hpa
    · have hfa : p a = false := eq_false_of_ne_true hpa
      have hcons : (a :: t).findIdx p = t.findIdx p + 1 := by
        rw [List.findIdx_cons, hfa, cond_false]
      have ht : t.findIdx p < t.length := by
        rw [hcons] at h
        simpa using h
      rw [hcons]
      simpa using ih ht

theorem findIdx_getD_before (l : List Nat) (p : Nat → Bool) (j : Nat)
    (hj : j < l.findIdx p) : p (l.getD j 0) = false := by
  induction l generalizing j with
  | nil => simp [List.findIdx_nil] at hj
  | cons a t ih =>
    by_cases hpa : p a
    · rw [List.findIdx_cons, hpa, cond_true] at hj
      exact absurd hj (by omega)
    · have hfa : p a = false := eq_false_of_ne_true hpa
      rw [List.findIdx_cons, hfa, cond_false] at hj
      cases j with
      | zero => simpa using hfa
      | succ k =>
        have := ih k (by omega)
        simpa using this

/-- `np.argmax` semantics: the entry at `argmaxIdx` is maximal, and every entry
strictly before it is strictly smaller (first-occurrence tie-breaking). -/
theorem argmaxIdx_spec (l : List Nat) (hl : l ≠ []) :
    argmaxIdx l < l.length ∧
      (∀ i, i < l.length → l.getD i 0 ≤ l.getD (argmaxIdx l) 0) ∧
      (∀ j, j < argmaxIdx l → l.getD j 0 < l.getD (argmaxIdx l) 0) := by
  obtain ⟨v, hv, hmax⟩ := exists_list_max l hl
  have hex : ∃ x ∈ l, (fun w => l.all fun u => u ≤ w) x = true :=
    ⟨v, hv, by simpa [List.all_eq_true] using hmax⟩
  have hlt : argmaxIdx l < l.length := List.findIdx_lt_length_of_exists hex
  have h1 : (l.all fun u => u ≤ l.getD (argmaxIdx l) 0) = true :=
    findIdx_getD_spec l _ hlt
  have hmaxval : ∀ u ∈ l, u ≤ l.getD (argmaxIdx l) 0 := by
    intro u hu
    simpa using List.all_eq_true.mp h1 u hu
  refine ⟨hlt, ?_, ?_⟩
  · intro i hi
    have hmem : l.getD i 0 ∈ l := by
      rw [List.getD_eq_getElem l 0 hi]
      exact List.getElem_mem hi
    exact hmaxval _ hmem
  · intro j hj
    have hjlen : j < l.length := lt_trans hj hlt
    have hfalse : (l.all fun u => u ≤ l.getD j 0) = false :=
      findIdx_getD_before l _ j hj
    have hlt2 : ∃ u ∈ l, l.getD j 0 < u := by
      by_contra hall
      push_neg at hall
      have : (l.all fun u => u ≤ l.getD j 0) = true := by
        rw [List.all_eq_true]
        intro u hu
        simpa using hall u hu
      rw [this] at hfalse
      exact absurd hfalse (by simp)
    obtain ⟨u, hu, hlt3⟩ := hlt2
    exact lt_of_lt_of_le hlt3 (hmaxval u hu)

/-! ## The component-selection functions of the source -/

/-- Error values the embedded pipeline can raise.
`emptyTarget` is the `ValueError("No white pixels in building mask.")` of
`modify_images`; `emptyChoice` is the `ValueError` that `np.random.choice`
raises in `find_random_white_patch` when the valid-candidate array is empty. -/
inductive Err where
  | emptyTarget
  | emptyChoice
deriving DecidableEq, Repr

/-- `largest_patch = np.argmax(patch_sizes) + 1` (`find_largest_white_patch`,
line 18 of the source; the same value is `largest_cc` in `crop_solar_panel`). -/
def largestPatchLabel (g : Grid) : Nat := argmaxIdx (patchSizes g) + 1

/-- `find_largest_white_patch(mask)`: center and bounding box of the largest
connected component (first label on ties, per `np.argmax`). -/
def find_largest_white_patch (g : Grid) : (Nat × Nat) × (Nat × Nat × Nat × Nat) :=
  let cc := (compsList g).getD (largestPatchLabel g - 1) ∅
  (centerOf cc, bboxOf cc)

/-- Random draws consumed by `find_random_white_patch`: seeds for the two
`random.randint` center coordinates of the fallback branch and for the
`np.random.choice` component selection. -/
structure FrwpRand where
  cx : Int
  cy : Int
  pick : Nat
deriving Repr

/-- `find_random_white_patch(mask, min_pixel_count)`.

If `num_features <= 1` the synthetic fallback is returned: a center drawn from
the central 200×200 region (`randint(width//2 - 100, width//2 + 100)` on each
axis, modelled as `start + seed % 201`) with the fixed box `center ± 30`.
Otherwise the components of size ≥ `min_pixel_count` are collected; if that
list is empty, `np.random.choice` is called on an empty array and raises
(`Err.emptyChoice`); else an arbitrary valid component is selected (modelled by
`pick % length`; the weighted probabilities only influence which index the
random draw yields) and its centroid and bounding box are returned. -/
def find_random_white_patch (g : Grid) (minPixelCount : Nat) (r : FrwpRand) :
    Except Err ((Int × Int) × (Int × Int × Int × Int)) :=
  let comps := compsList g
  if comps.length ≤ 1 then
    let csx : Int := (g.w : Int) / 2 - 100
    let csy : Int := (g.h : Int) / 2 - 100
    let cx := csx + r.cx % 201
    let cy := csy + r.cy % 201
    .ok ((cx, cy), (cx - 30, cy - 30, cx + 30, cy + 30))
  else
    let sizes := patchSizes g
    let valid := (List.range sizes.length).filter fun i => minPixelCount ≤ sizes.getD i 0
    if valid.isEmpty then .error .emptyChoice
    else
      let selIdx := valid.getD (r.pick % valid.length) 0
      let cc := comps.getD selIdx ∅
      .ok (((centerOf cc).1, (centerOf cc).2),
           ((bboxOf cc).1, (bboxOf cc).2.1, (bboxOf cc).2.2.1, (bboxOf cc).2.2.2))

/-- The grid `(labeled_mask == largest_cc).astype(np.uint8) * 255` for a
component `cc`. -/
def ccGrid (w h : Nat) (cc : Finset (Nat × Nat)) : Grid :=
  ofFn w h fun x y => if 0 ≤ x ∧ 0 ≤ y ∧ (x.toNat, y.toNat) ∈ cc then 255 else 0

/-- PIL `image.crop((l, t, r, b))` and the numpy slice `arr[t:b, l:r]`: the
half-open window `[l, r) × [t, b)`, black-padded where it leaves the canvas. -/
def cropG (l t r b : Int) (g : Grid) : Grid :=
  ofFn (r - l).toNat (b - t).toNat fun x y => pixel g (x + l) (y + t)

/-- Paste `g` onto a `W × H` black canvas with its top-left corner at `(l, t)`
(used for `ImageOps.expand` and the spec's re-pad). -/
def padG (l t : Nat) (W H : Nat) (g : Grid) : Grid :=
  ofFn W H fun x y => pixel g (x - (l : Int)) (y - (t : Int))

/-- `ImageOps.expand(img, border=b, fill='black')`. -/
def expandG (b : Nat) (g : Grid) : Grid := padG b b (g.w + 2 * b) (g.h + 2 * b) g

/-- `target.paste(src, (px, py), mask=stencil)` for a binary {0,255} stencil:
copy the source pixel wherever the stencil (of the source's geometry) reads
255, keep the target pixel elsewhere. -/
def pasteSt (tgt src stencil : Grid) (px py : Int) : Grid :=
  ofFn tgt.w tgt.h fun X Y =>
    if 0 ≤ X - px ∧ X - px < (src.w : Int) ∧ 0 ≤ Y - py ∧ Y - py < (src.h : Int)
        ∧ pixel stencil (X - px) (Y - py) = 255
    then pixel src (X - px) (Y - py)
    else pixel tgt X Y

/-- The largest connected component selected by `crop_solar_panel`
(`largest_cc` in the source, as a pixel set). -/
def largestCC (mask : Grid) : Finset (Nat × Nat) :=
  (compsList mask).getD (largestPatchLabel mask - 1) ∅

/-- `crop_solar_panel(image, mask)`: isolate the largest connected component of
`mask`, and crop `image` and the component-only binary mask to the half-open
window given by the component's coordinate extremes.  When the mask has no
foreground pixel, `np.argmax` of the empty size array raises and the broad
`except:` returns the 1×1 empty placeholders. -/
def crop_solar_panel (image mask : Grid) : Grid × Grid :=
  if (compsList mask).isEmpty then
    (ofFn 1 1 fun _ _ => 0, ofFn 1 1 fun _ _ => 0)
  else
    (cropG (minFst (largestCC mask)) (minSnd (largestCC mask))
           (maxFst (largestCC mask)) (maxSnd (largestCC mask)) image,
     cropG (minFst (largestCC mask)) (minSnd (largestCC mask))
           (maxFst (largestCC mask)) (maxSnd (largestCC mask))
           (ccGrid mask.w mask.h (largestCC mask)))

/-- The orientation skimage's `regionprops_table` computes from the second
central moments of the foreground (a principal-axis angle; transcendental,
real-valued).  Its exact value is irrelevant to every verified claim; only the
exception fallback of `find_angle` is. -/
noncomputable def regionOrientation (fg : Finset (Nat × Nat)) : Real :=
  let n : Real := fg.card
  let mx : Real := (∑ p ∈ fg, (p.1 : Real)) / n
  let my : Real := (∑ p ∈ fg, (p.2 : Real)) / n
  let mu11 : Real := ∑ p ∈ fg, ((p.1 : Real) - mx) * ((p.2 : Real) - my)
  let mu20 : Real := ∑ p ∈ fg, ((p.1 : Real) - mx) ^ 2
  let mu02 : Real := ∑ p ∈ fg, ((p.2 : Real) - my) ^ 2
  (1 / 2) * Real.arctan (2 * mu11 / (mu20 - mu02))

/-- The set of pixels of `m` whose value is exactly 255
(`binary_mask = (mask_array == 255).astype(int)` in `find_angle`). -/
def whiteSet (m : Grid) : Finset (Nat × Nat) :=
  ((Finset.range m.w) ×ˢ (Finset.range m.h)).filter
    (fun p => pixel m (p.1 : Int) (p.2 : Int) = 255)

/-- `find_angle(mask)`: orientation of the set of pixels equal to 255.  With no
255-pixel the orientation table is empty and indexing it raises `IndexError`;
with a single 255-pixel the moment computation raises `ValueError` (per the
source's own comment); both are swallowed by the broad `except:` and 0 is
returned. -/
noncomputable def find_angle (m : Grid) : Real :=
  if (whiteSet m).card = 0 then 0
  else if (whiteSet m).card = 1 then 0
  else regionOrientation (whiteSet m)

/-! ## The compositor (`paste_solar_panel`, `modify_images`) -/

/-- Random draws of `paste_solar_panel`: seeds for the two
`random.randint(-25, 25)` paste-position jitters (modelled as
`-25 + seed % 51`).  The rotation jitter and the perturbation gates live
inside the transformation stage (`transImg` / `transMask`). -/
structure PasteRand where
  jx : Int
  jy : Int
deriving Repr

/-- `paste_solar_panel(target_image, target_mask, target_mask_np,
cropped_image, cropped_mask, target_location, target_bounding_box)`.

Returns the pair (pasted target image, pasted target mask).  Faithful points:
* the paste anchor is computed, jittered, and clamped with the dimensions of
  the cropped image *before* rotation (source lines 136-152 precede the
  rotation of line 166);
* `transImg` / `transMask` stand for the rotation + photometric + zoom stage
  (PIL floating-point resampling, lines 154-202);
* the transformed patch mask is re-binarized with the strict `> 50` threshold;
* the target mask is cleared to all-zero (`target_mask_np.fill(0)`) before the
  paste, so the output mask shows only the pasted patch. -/
def paste_solar_panel (tImg tMask cImg cMask : Grid)
    (bb : Int × Int × Int × Int) (r : PasteRand)
    (transImg transMask : Grid → Grid) : Grid × Grid :=
  let xmin := bb.1
  let ymin := bb.2.1
  let xmax := bb.2.2.1
  let ymax := bb.2.2.2
  let centerX := (xmax + xmin).fdiv 2
  let centerY := (ymax + ymin).fdiv 2
  let px0 := centerX - ((cImg.w : Int)).fdiv 2 + (-25 + r.jx % 51)
  let py0 := centerY - ((cImg.h : Int)).fdiv 2 + (-25 + r.jy % 51)
  let px := max xmin (min px0 (xmax - (cImg.w : Int)))
  let py := max ymin (min py0 (ymax - (cImg.h : Int)))
  let cImgT := transImg cImg
  let cMaskT := transMask cMask
  let cMaskB := ofFn cMaskT.w cMaskT.h fun x y => if 50 < pixel cMaskT x y then 255 else 0
  let cleared := zeroG tMask.w tMask.h
  (pasteSt tImg cImgT cMaskB px py, pasteSt cleared cMaskB cMaskB px py)

/-- All random draws consumed by one `modify_images` call. -/
structure ModRand where
  frwp : FrwpRand
  paste : PasteRand
deriving Repr

/-- `MIN_PIXEL_COUNT = 1500` (line 241 of the source). -/
def MIN_PIXEL_COUNT : Nat := 1500

/-- The target mask after `find_random_white_patch`'s bounding box is applied:
rows above `ymin` / at or below `ymax` and columns left of `xmin` / at or right
of `xmax` are zeroed (source lines 248-252). -/
def maskOutsideBox (g : Grid) (bb : Int × Int × Int × Int) : Grid :=
  ofFn g.w g.h fun x y =>
    if x < bb.1 ∨ bb.2.2.1 ≤ x ∨ y < bb.2.1 ∨ bb.2.2.2 ≤ y then 0 else pixel g x y

/-- `modify_images(source_image, source_mask, target_image, target_mask)`
followed by everything up to (but not including) the final central crop and
re-pad: raises `emptyTarget` when the target mask sums to zero, binarizes both
masks, selects the placement region, restricts the target mask to its box,
extracts the dominant source patch, and pastes. -/
def modify_core (srcImg srcMask tImg tMask : Grid) (mr : ModRand)
    (transImg transMask : Grid → Grid) : Except Err (Grid × Grid) :=
  if sumGrid tMask = 0 then .error .emptyTarget
  else
    match find_random_white_patch (binarizeNZ tMask) MIN_PIXEL_COUNT mr.frwp with
    | .error e => .error e
    | .ok (_loc, bb) =>
      .ok (paste_solar_panel tImg (maskOutsideBox (binarizeNZ tMask) bb)
        (crop_solar_panel srcImg (binarizeNZ srcMask)).1
        (crop_solar_panel srcImg (binarizeNZ srcMask)).2
        bb mr.paste transImg transMask)

/-- The final stage of `modify_images` (source lines 262-268): crop to the
fixed box `(100, 100, 300, 300)` and re-pad with a fixed 100-pixel black
border. -/
def finalizeG (g : Grid) : Grid := expandG 100 (cropG 100 100 300 300 g)

/-- Modelled from the spec: "Crop the result to the central 200×200 region,
then re-pad with black borders back to the original canvas size" — the central
200×200 window of `g`'s canvas, re-padded to `g`'s own dimensions.  Used only
to compare the code's fixed-coordinate final stage against the spec's words. -/
def specCentralRepad (g : Grid) : Grid :=
  padG ((g.w - 200) / 2) ((g.h - 200) / 2) g.w g.h
    (cropG (((g.w - 200) / 2 : Nat) : Int) (((g.h - 200) / 2 : Nat) : Int)
      ((((g.w - 200) / 2 : Nat) : Int) + 200) ((((g.h - 200) / 2 : Nat) : Int) + 200) g)

/-- `modify_images`: the full compositor, returning the modified target image
and mask. -/
def modify_images (srcImg srcMask tImg tMask : Grid) (mr : ModRand)
    (transImg transMask : Grid → Grid) : Except Err (Grid × Grid) :=
  (modify_core srcImg srcMask tImg tMask mr transImg transMask).map
    fun p => (finalizeG p.1, finalizeG p.2)

/-! ## The batch orchestrator (`ImageProcessor`) -/

/-- Random draws and transformation outcomes consumed by one batch iteration:
the two `random.randint(0, len - 1)` pool indices (modelled as `seed % len`)
and the compositor's draws. -/
structure DrawRand where
  si : Nat
  bi : Nat
  mr : ModRand
  transImg : Grid → Grid
  transMask : Grid → Grid

/-- A pool state: solar images, solar masks, building images, building masks
(the four mutable lists of `process_all_images`). -/
abbrev Pools := List Grid × List Grid × List Grid × List Grid

/-- `ImageProcessor.process_sample_images`: draw one solar and one building
index, composite, and only on success remove the drawn items from the lists.
The returned pool state is the state of the four lists when the call finishes:
when `modify_images` raises, the exception propagates before the `pop` calls,
so the lists are returned unchanged. -/
def process_sample_images (solarImages solarMasks buildingImages buildingMasks : List Grid)
    (d : DrawRand) : Except Err (Grid × Grid) × Pools :=
  let si := d.si % solarImages.length
  let bi := d.bi % buildingImages.length
  let srcImg := solarImages.getD si gdefault
  let srcMsk := solarMasks.getD si gdefault
  let tgtImg := buildingImages.getD bi gdefault
  let tgtMsk := buildingMasks.getD bi gdefault
  match modify_images srcImg srcMsk tgtImg tgtMsk d.mr d.transImg d.transMask with
  | .error e => (.error e, (solarImages, solarMasks, buildingImages, buildingMasks))
  | .ok r =>
      (.ok r, (solarImages.eraseIdx si, solarMasks.eraseIdx si,
               buildingImages.eraseIdx bi, buildingMasks.eraseIdx bi))

/-- The loop body of `ImageProcessor.process_all_images`: `n` iterations left,
`i` the global iteration counter (indexing the random stream), current pools,
accumulated accepted outputs.  Each iteration refills an exhausted pool from
the original lists, draws and composites, and accepts the result only when the
output mask's 255-pixel count lies in `[200, 10000]`.  `process_sample_images`
is called with no `try`: a compositor exception aborts the whole batch. -/
def processLoop (origSI origSM origBI origBM : List Grid) (rnd : Nat → DrawRand) :
    Nat → Nat → Pools → List (Grid × Grid) → Except Err (List (Grid × Grid))
  | 0, _, _, outs => .ok outs
  | n + 1, i, pools, outs =>
    let sPools := if pools.1.isEmpty then (origSI, origSM) else (pools.1, pools.2.1)
    let bPools := if pools.2.2.1.isEmpty then (origBI, origBM) else (pools.2.2.1, pools.2.2.2)
    match process_sample_images sPools.1 sPools.2 bPools.1 bPools.2 (rnd i) with
    | (.error e, _) => .error e
    | (.ok (image, mask), pools') =>
      let numWhite := whiteCount mask
      let outs' := if 200 ≤ numWhite ∧ numWhite ≤ 10000 then outs ++ [(image, mask)] else outs
      processLoop origSI origSM origBI origBM rnd n (i + 1) pools' outs'

/-- `ImageProcessor.process_all_images`: run `loops` iterations starting from
full copies of the four file lists (`loops` is the precomputed
`math.ceil(len(solar_images) * factor)`), returning the accepted (image, mask)
pairs in save order — or the exception that aborted the batch. -/
def process_all_images (solarImageFiles solarMaskFiles buildingImageFiles buildingMaskFiles : List Grid)
    (rnd : Nat → DrawRand) (loops : Nat) : Except Err (List (Grid × Grid)) :=
  processLoop solarImageFiles solarMaskFiles buildingImageFiles buildingMaskFiles rnd loops 0
    (solarImageFiles, solarMaskFiles, buildingImageFiles, buildingMaskFiles) []

/-! ## Support lemmas for the claims -/

theorem whiteCount_eq_card_whiteSet (g : Grid) : whiteCount g = (whiteSet g).card := rfl

/-- The only error `find_random_white_patch` can raise is the empty
`np.random.choice` one. -/
theorem find_random_white_patch_error (g : Grid) (m : Nat) (r : FrwpRand) (e : Err)
    (h : find_random_white_patch g m r = .error e) : e = .emptyChoice := by
  unfold find_random_white_patch at h
  dsimp only at h
  split at h
  · exact absurd h (by simp)
  · split at h
    · cases h; rfl
    · exact absurd h (by simp)

theorem patchSizes_getD (g : Grid) (i : Nat) (hi : i < (compsList g).length) :
    (patchSizes g).getD i 0 = ((compsList g).getD i ∅).card := by
  have hlen : i < (patchSizes g).length := by simpa [patchSizes] using hi
  rw [List.getD_eq_getElem _ 0 hlen, List.getD_eq_getElem _ ∅ hi]
  simp [patchSizes]

theorem compsList_ne_nil (g : Grid) (hfg : fgSet g ≠ ∅) : compsList g ≠ [] := by
  obtain ⟨p, hp⟩ := Finset.nonempty_iff_ne_empty.mpr hfg
  obtain ⟨C, hC, _⟩ := fgSet_covered g p hp
  exact List.ne_nil_of_mem hC

/-! ## Claims -/

/-- **C10**. `find_angle` treats only pixels with value exactly 255 as
foreground: for every mask none of whose pixels equals 255 (i.e. whose
255-pixel count is zero — for example a {0,1}-valued mask, however many
nonzero pixels it has), it returns angle 0 via the exception fallback rather
than a computed orientation. -/
theorem claim_C10_find_angle_zero (m : Grid) (h : whiteCount m = 0) :
    find_angle m = 0 := by
  rw [whiteCount_eq_card_whiteSet] at h
  rw [find_angle, if_pos h]

/-- Witness for C10 at a 2×2 mask whose pixels all have value 1 (nonzero but
not 255). -/
theorem claim_C10_witness :
    whiteCount (ofFn 2 2 fun _ _ => 1) = 0 ∧ find_angle (ofFn 2 2 fun _ _ => 1) = 0 :=
  ⟨by decide, claim_C10_find_angle_zero _ (by decide)⟩

/-- **C8**. For every binary mask with at least one foreground pixel,
`find_largest_white_patch` selects (as `largest_patch = np.argmax(...) + 1`)
a connected component whose pixel count is ≥ the pixel count of every other
component, and on ties the one with the lowest label id (every component with
a strictly lower label is strictly smaller); the function's returned center
and bounding box are those of this component. -/
theorem claim_C8_selectLargest (g : Grid) (hfg : fgSet g ≠ ∅) :
    largestPatchLabel g - 1 < (compsList g).length ∧
      (∀ i, i < (compsList g).length →
        ((compsList g).getD i ∅).card ≤
          ((compsList g).getD (largestPatchLabel g - 1) ∅).card) ∧
      (∀ j, j < largestPatchLabel g - 1 →
        ((compsList g).getD j ∅).card <
          ((compsList g).getD (largestPatchLabel g - 1) ∅).card) ∧
      find_largest_white_patch g =
        (centerOf ((compsList g).getD (largestPatchLabel g - 1) ∅),
         bboxOf ((compsList g).getD (largestPatchLabel g - 1) ∅)) := by
  have hnil : compsList g ≠ [] := compsList_ne_nil g hfg
  have hsz : patchSizes g ≠ [] := by simpa [patchSizes] using hnil
  obtain ⟨hlt, hmax, hties⟩ := argmaxIdx_spec (patchSizes g) hsz
  have hlen : (patchSizes g).length = (compsList g).length := by simp [patchSizes]
  have hsel : largestPatchLabel g - 1 = argmaxIdx (patchSizes g) := by
    simp [largestPatchLabel]
  rw [hlen] at hlt
  refine ⟨hsel ▸ hlt, ?_, ?_, rfl⟩
  · intro i hi
    have := hmax i (by rw [hlen]; exact hi)
    rw [patchSizes_getD g i hi, patchSizes_getD g _ (hsel ▸ hlt)] at this
    rw [hsel]
    exact this
  · intro j hj
    rw [hsel] at hj
    have := hties j hj
    have hjlen : j < (compsList g).length := lt_trans hj (hsel ▸ hlt)
    rw [patchSizes_getD g j hjlen, patchSizes_getD g _ (hsel ▸ hlt)] at this
    rw [hsel]
    exact this

/-- Witness for C8 at the 3×1 mask `[255, 0, 255]` (two components of size 1:
the maximum is attained twice, and the first label is selected). -/
theorem claim_C8_witness :
    fgSet (ofFn 3 1 fun x _ => if x = 0 ∨ x = 2 then 255 else 0) ≠ ∅ ∧
      (largestPatchLabel (ofFn 3 1 fun x _ => if x = 0 ∨ x = 2 then 255 else 0) - 1 <
        (compsList (ofFn 3 1 fun x _ => if x = 0 ∨ x = 2 then 255 else 0)).length ∧
      (∀ i, i < (compsList (ofFn 3 1 fun x _ => if x = 0 ∨ x = 2 then 255 else 0)).length →
        ((compsList (ofFn 3 1 fun x _ => if x = 0 ∨ x = 2 then 255 else 0)).getD i ∅).card ≤
          ((compsList (ofFn 3 1 fun x _ => if x = 0 ∨ x = 2 then 255 else 0)).getD
            (largestPatchLabel (ofFn 3 1 fun x _ => if x = 0 ∨ x = 2 then 255 else 0) - 1) ∅).card) ∧
      (∀ j, j < largestPatchLabel (ofFn 3 1 fun x _ => if x = 0 ∨ x = 2 then 255 else 0) - 1 →
        ((compsList (ofFn 3 1 fun x _ => if x = 0 ∨ x = 2 then 255 else 0)).getD j ∅).card <
          ((compsList (ofFn 3 1 fun x _ => if x = 0 ∨ x = 2 then 255 else 0)).getD
            (largestPatchLabel (ofFn 3 1 fun x _ => if x = 0 ∨ x = 2 then 255 else 0) - 1) ∅).card) ∧
      find_largest_white_patch (ofFn 3 1 fun x _ => if x = 0 ∨ x = 2 then 255 else 0) =
        (centerOf ((compsList (ofFn 3 1 fun x _ => if x = 0 ∨ x = 2 then 255 else 0)).getD
          (largestPatchLabel (ofFn 3 1 fun x _ => if x = 0 ∨ x = 2 then 255 else 0) - 1) ∅),
         bboxOf ((compsList (ofFn 3 1 fun x _ => if x = 0 ∨ x = 2 then 255 else 0)).getD
          (largestPatchLabel (ofFn 3 1 fun x _ => if x = 0 ∨ x = 2 then 255 else 0) - 1) ∅))) :=
  ⟨by decide, claim_C8_selectLargest _ (by decide)⟩

/-- **C6**. `modify_images` raises the empty-target error exactly when the
target mask has zero sum, i.e. every pixel is 0; with at least one nonzero
pixel that error is never raised (any later failure is the distinct
`emptyChoice` error). -/
theorem claim_C6_emptyTarget_iff (srcImg srcMask tImg tMask : Grid) (mr : ModRand)
    (transImg transMask : Grid → Grid) :
    modify_images srcImg srcMask tImg tMask mr transImg transMask = .error .emptyTarget ↔
      sumGrid tMask = 0 := by
  unfold modify_images modify_core
  by_cases h : sumGrid tMask = 0
  · simp [h, Except.map]
  · rw [if_neg h]
    simp only [h, iff_false]
    cases hfr : find_random_white_patch (binarizeNZ tMask) MIN_PIXEL_COUNT mr.frwp with
    | error e =>
      have he : e = .emptyChoice := find_random_white_patch_error _ _ _ _ hfr
      subst he
      simp [Except.map]
    | ok v =>
      obtain ⟨loc, bb⟩ := v
      simp [Except.map]

/-- **C9**. When compositing a drawn pair raises, `process_sample_images`
propagates the exception before any `pop` executes, so the four pool lists are
left exactly as they were: a failing draw does not consume pool entries. -/
theorem claim_C9_pools_unchanged (sI sM bI bM : List Grid) (d : DrawRand) (e : Err)
    (h : modify_images (sI.getD (d.si % sI.length) gdefault)
          (sM.getD (d.si % sI.length) gdefault)
          (bI.getD (d.bi % bI.length) gdefault)
          (bM.getD (d.bi % bI.length) gdefault) d.mr d.transImg d.transMask = .error e) :
    process_sample_images sI sM bI bM d = (.error e, (sI, sM, bI, bM)) := by
  unfold process_sample_images
  dsimp only
  rw [h]

/-- A one-element pool of 1×1 white grids (witness fixture). -/
def poolS : List Grid := [allWhite 1 1]

/-- A one-element building-mask pool whose only mask is all-zero. -/
def poolBZ : List Grid := [zeroG 1 1]

/-- A fixed draw: all seeds 0, identity transformation stage. -/
def drand0 : DrawRand := ⟨0, 0, ⟨⟨0, 0, 0⟩, ⟨0, 0⟩⟩, id, id⟩

/-- Witness for C9: drawing the all-zero building mask makes `modify_images`
raise, and the pools come back unchanged. -/
theorem claim_C9_witness :
    modify_images (poolS.getD (drand0.si % poolS.length) gdefault)
        (poolS.getD (drand0.si % poolS.length) gdefault)
        (poolS.getD (drand0.bi % poolS.length) gdefault)
        (poolBZ.getD (drand0.bi % poolS.length) gdefault)
        drand0.mr drand0.transImg drand0.transMask = .error .emptyTarget ∧
      process_sample_images poolS poolS poolS poolBZ drand0 =
        (.error .emptyTarget, (poolS, poolS, poolS, poolBZ)) := by
  have hmod : modify_images (poolS.getD (drand0.si % poolS.length) gdefault)
      (poolS.getD (drand0.si % poolS.length) gdefault)
      (poolS.getD (drand0.bi % poolS.length) gdefault)
      (poolBZ.getD (drand0.bi % poolS.length) gdefault)
      drand0.mr drand0.transImg drand0.transMask = .error .emptyTarget := by
    have hz : sumGrid (poolBZ.getD (drand0.bi % poolS.length) gdefault) = 0 := by decide
    unfold modify_images modify_core
    rw [if_pos hz]
    rfl
  exact ⟨hmod, claim_C9_pools_unchanged poolS poolS poolS poolBZ drand0 .emptyTarget hmod⟩

/-- A 3×1 mask `[255, 0, 255]`: two 4-connected components, each of size 1. -/
def twoDots : Grid := ofFn 3 1 fun x _ => if x = 0 ∨ x = 2 then 255 else 0

/-- **C2**. The claim says that whenever no component reaches
`min_pixel_count` the synthetic central fallback is returned and the function
cannot fail.  The code only takes the fallback branch when `num_features <= 1`
(source line 37), although its own comment ("If there are no valid patches,
randomly select a center and bounding box") documents the branch as the
no-valid-patch handler: with two components both below the threshold, the
valid-candidate list is empty and `np.random.choice` is called on an empty
array with `0/0` probabilities and raises.  This theorem evaluates the
embedded code at such a failing input. -/
theorem claim_C2_choice_raises :
    find_random_white_patch twoDots 200 ⟨0, 0, 0⟩ = .error .emptyChoice := by
  rfl

/-- **C1** (counterexample).  The pools contain a single pair whose building
mask is all-zero; `generate(1, ...)` does not absorb the compositor's
`EmptyTargetError` — `process_all_images` calls `process_sample_images` with
no `try` (source line 368), so the error propagates and the batch aborts
instead of skipping the pair and continuing to completion. -/
theorem claim_C1_counterexample :
    process_all_images poolS poolS poolS poolBZ (fun _ => drand0) 1 =
      .error .emptyTarget := by
  rfl

/-- **C1** (amended).  `process_all_images` does not catch the compositor's
error: whenever the pair drawn at the first iteration has an all-zero target
mask (and the initial pools are nonempty, so no refill intervenes), the
`EmptyTargetError` propagates out of `generate` and the batch aborts with no
outputs, rather than the pair being skipped and the loop continuing. -/
theorem claim_C1_amended (sI sM bI bM : List Grid) (rnd : Nat → DrawRand) (k : Nat)
    (hs : sI ≠ []) (hb : bI ≠ [])
    (hz : sumGrid (bM.getD ((rnd 0).bi % bI.length) gdefault) = 0) :
    process_all_images sI sM bI bM rnd (k + 1) = .error .emptyTarget := by
  have hse : sI.isEmpty = false := by
    cases sI with
    | nil => exact absurd rfl hs
    | cons a t => rfl
  have hbe : bI.isEmpty = false := by
    cases bI with
    | nil => exact absurd rfl hb
    | cons a t => rfl
  have hmod : modify_images (sI.getD ((rnd 0).si % sI.length) gdefault)
      (sM.getD ((rnd 0).si % sI.length) gdefault)
      (bI.getD ((rnd 0).bi % bI.length) gdefault)
      (bM.getD ((rnd 0).bi % bI.length) gdefault)
      (rnd 0).mr (rnd 0).transImg (rnd 0).transMask = .error .emptyTarget := by
    unfold modify_images modify_core
    rw [if_pos hz]
    rfl
  unfold process_all_images processLoop
  dsimp only
  rw [hse, hbe]
  simp only [Bool.false_eq_true, if_false]
  unfold process_sample_images
  dsimp only
  rw [hmod]

/-- Witness for the amended C1 at the concrete one-pair pools with the
all-zero building mask. -/
theorem claim_C1_witness :
    poolS ≠ [] ∧
      sumGrid (poolBZ.getD (((fun _ : Nat => drand0) 0).bi % poolS.length) gdefault) = 0 ∧
      process_all_images poolS poolS poolS poolBZ (fun _ => drand0) 3 = .error .emptyTarget :=
  ⟨by unfold poolS; exact List.cons_ne_nil _ _, by decide,
    claim_C1_amended poolS poolS poolS poolBZ (fun _ => drand0) 2
      (by unfold poolS; exact List.cons_ne_nil _ _)
      (by unfold poolS; exact List.cons_ne_nil _ _) (by decide)⟩

/-! ## C7: the output mask is binary -/

/-- A grid all of whose pixel reads are 0 or 255. -/
def BinaryGrid (g : Grid) : Prop :=
  ∀ X Y : Int, pixel g X Y = 0 ∨ pixel g X Y = 255

theorem binaryGrid_zeroG (w h : Nat) : BinaryGrid (zeroG w h) := by
  intro X Y
  left
  simp [zeroG, pixel, ofFn]

theorem binaryGrid_threshold (m : Grid) :
    BinaryGrid (ofFn m.w m.h fun x y => if 50 < pixel m x y then 255 else 0) := by
  intro X Y
  rw [pixel_ofFn]
  split
  · split
    · right; rfl
    · left; rfl
  · left; rfl

theorem binaryGrid_pasteSt (tgt src st : Grid) (px py : Int)
    (hs : BinaryGrid src) (ht : BinaryGrid tgt) :
    BinaryGrid (pasteSt tgt src st px py) := by
  intro X Y
  unfold pasteSt
  rw [pixel_ofFn]
  split
  · split
    · exact hs _ _
    · exact ht _ _
  · left; rfl

theorem binaryGrid_cropG (l t r b : Int) (g : Grid) (hg : BinaryGrid g) :
    BinaryGrid (cropG l t r b g) := by
  intro X Y
  unfold cropG
  rw [pixel_ofFn]
  split
  · exact hg _ _
  · left; rfl

theorem binaryGrid_padG (l t W H : Nat) (g : Grid) (hg : BinaryGrid g) :
    BinaryGrid (padG l t W H g) := by
  intro X Y
  unfold padG
  rw [pixel_ofFn]
  split
  · exact hg _ _
  · left; rfl

theorem binaryGrid_finalizeG (g : Grid) (hg : BinaryGrid g) :
    BinaryGrid (finalizeG g) :=
  binaryGrid_padG _ _ _ _ _ (binaryGrid_cropG _ _ _ _ _ hg)

/-- The mask produced by the core pipeline (before the final crop/pad) is
binary: the stencil is the `> 50`-thresholded patch mask and the target mask
was cleared to zero before the paste. -/
theorem modify_core_mask_binary (srcImg srcMask tImg tMask : Grid) (mr : ModRand)
    (transImg transMask : Grid → Grid) (p : Grid × Grid)
    (h : modify_core srcImg srcMask tImg tMask mr transImg transMask = .ok p) :
    BinaryGrid p.2 := by
  unfold modify_core at h
  split at h
  · exact absurd h (by simp)
  · split at h
    · exact absurd h (by simp)
    · rename_i loc bb heq
      cases h
      unfold paste_solar_panel
      dsimp only
      exact binaryGrid_pasteSt _ _ _ _ _ (binaryGrid_threshold _) (binaryGrid_zeroG _ _)

/-- **C7**. For every input accepted by the compositor, every pixel of the
returned mask is exactly 0 or 255: the transformed patch mask is re-binarized
with the `> 50` threshold, the target mask is cleared to 0, pasting with the
binary stencil introduces no intermediate values, and the final crop/pad only
adds black. -/
theorem claim_C7_mask_binary (srcImg srcMask tImg tMask : Grid) (mr : ModRand)
    (transImg transMask : Grid → Grid)
    (h : (modify_images srcImg srcMask tImg tMask mr transImg transMask).toOption.isSome = true)
    (X Y : Int) :
    pixel (((modify_images srcImg srcMask tImg tMask mr transImg transMask).toOption.get h).2) X Y = 0 ∨
      pixel (((modify_images srcImg srcMask tImg tMask mr transImg transMask).toOption.get h).2) X Y = 255 := by
  cases hcore : modify_core srcImg srcMask tImg tMask mr transImg transMask with
  | error e =>
    rw [modify_images, hcore] at h
    exact absurd h (by simp [Except.map, Except.toOption])
  | ok p =>
    have hbin := binaryGrid_finalizeG p.2 (modify_core_mask_binary _ _ _ _ _ _ _ p hcore)
    have hval : ((modify_images srcImg srcMask tImg tMask mr transImg transMask).toOption.get h) =
        (finalizeG p.1, finalizeG p.2) := by
      simp [modify_images, hcore, Except.map, Except.toOption]
    rw [hval]
    exact hbin X Y

/-- Witness for C7: a 2×2 all-white source pair and a 2×2 target with one
foreground pixel make the compositor succeed; the theorem then applies. -/
theorem claim_C7_witness :
    (modify_images (allWhite 2 2) (allWhite 2 2) (allWhite 2 2) (oneWhite 2 2 0 0)
        ⟨⟨0, 0, 0⟩, ⟨0, 0⟩⟩ id id).toOption.isSome = true ∧
      (pixel (((modify_images (allWhite 2 2) (allWhite 2 2) (allWhite 2 2) (oneWhite 2 2 0 0)
        ⟨⟨0, 0, 0⟩, ⟨0, 0⟩⟩ id id).toOption.get (by rfl)).2) 0 0 = 0 ∨
       pixel (((modify_images (allWhite 2 2) (allWhite 2 2) (allWhite 2 2) (oneWhite 2 2 0 0)
        ⟨⟨0, 0, 0⟩, ⟨0, 0⟩⟩ id id).toOption.get (by rfl)).2) 0 0 = 255) :=
  ⟨by rfl, claim_C7_mask_binary (allWhite 2 2) (allWhite 2 2) (allWhite 2 2) (oneWhite 2 2 0 0)
    ⟨⟨0, 0, 0⟩, ⟨0, 0⟩⟩ id id (by rfl) 0 0⟩

/-! ## Computing `compsList` on concrete mask shapes -/

theorem pixel_binarizeNZ (g : Grid) (x y : Int) :
    pixel (binarizeNZ g) x y = if 0 < pixel g x y then 255 else 0 := by
  unfold binarizeNZ
  rw [pixel_ofFn]
  by_cases hb : 0 ≤ x ∧ x < (g.w : Int) ∧ 0 ≤ y ∧ y < (g.h : Int)
  · rw [if_pos hb]
  · rw [if_neg hb]
    have h0 : pixel g x y = 0 := by rw [pixel, if_neg hb]
    rw [h0]
    simp

theorem fgSet_binarizeNZ (g : Grid) : fgSet (binarizeNZ g) = fgSet g := by
  ext p
  simp only [fgSet, Finset.mem_filter, pixel_binarizeNZ]
  have hw : (binarizeNZ g).w = g.w := rfl
  have hh : (binarizeNZ g).h = g.h := rfl
  rw [hw, hh]
  constructor
  · rintro ⟨hmem, hne⟩
    refine ⟨hmem, ?_⟩
    intro hz
    rw [hz] at hne
    simp at hne
  · rintro ⟨hmem, hne⟩
    refine ⟨hmem, ?_⟩
    rw [if_pos (Nat.pos_of_ne_zero hne)]
    omega

theorem fgSet_oneWhite (w h px py : Nat) (hx : px < w) (hy : py < h) :
    fgSet (oneWhite w h px py) = {(px, py)} := by
  ext p
  obtain ⟨a, b⟩ := p
  simp only [fgSet, oneWhite, Finset.mem_filter, Finset.mem_product, Finset.mem_range,
    Finset.mem_singleton, Prod.mk.injEq, pixel_ofFn, ofFn_w, ofFn_h]
  constructor
  · rintro ⟨⟨ha, hb⟩, hne⟩
    rw [if_pos ⟨Int.natCast_nonneg _, by exact_mod_cast ha, Int.natCast_nonneg _,
      by exact_mod_cast hb⟩] at hne
    by_cases hc : (a : Int) = (px : Int) ∧ (b : Int) = (py : Int)
    · exact ⟨by exact_mod_cast hc.1, by exact_mod_cast hc.2⟩
    · rw [if_neg hc] at hne
      exact absurd rfl hne
  · rintro ⟨rfl, rfl⟩
    refine ⟨⟨hx, hy⟩, ?_⟩
    rw [if_pos ⟨Int.natCast_nonneg _, by exact_mod_cast hx, Int.natCast_nonneg _,
      by exact_mod_cast hy⟩, if_pos ⟨rfl, rfl⟩]
    omega

/-- The `w × h` full rectangle of pixel positions. -/
def rectSet (w h : Nat) : Finset (Nat × Nat) := (Finset.range w) ×ˢ (Finset.range h)

theorem fgSet_allWhite (w h : Nat) : fgSet (allWhite w h) = rectSet w h := by
  ext p
  obtain ⟨a, b⟩ := p
  simp only [fgSet, allWhite, rectSet, Finset.mem_filter, Finset.mem_product, Finset.mem_range,
    pixel_ofFn]
  constructor
  · rintro ⟨⟨ha, hb⟩, _⟩
    exact ⟨ha, hb⟩
  · rintro ⟨ha, hb⟩
    refine ⟨⟨ha, hb⟩, ?_⟩
    rw [if_pos ⟨Int.natCast_nonneg _, by exact_mod_cast ha, Int.natCast_nonneg _, by exact_mod_cast hb⟩]
    exact (by omega)

/-- When every foreground pixel is already covered, the rest of the raster
scan changes nothing. -/
theorem foldl_compsStep_skip (S : Finset (Nat × Nat)) (l : List (Nat × Nat)) :
    ∀ acc, (∀ q ∈ S, ∃ C ∈ acc, q ∈ C) → l.foldl (compsStep S) acc = acc := by
  induction l with
  | nil => intro acc _; rfl
  | cons a t ih =>
    intro acc hacc
    have hstep : compsStep S acc a = acc := by
      unfold compsStep
      split
      · rename_i hcond
        obtain ⟨C, hC, haC⟩ := hacc a hcond.1
        exact absurd haC (hcond.2 C hC)
      · rfl
    rw [List.foldl_cons, hstep]
    exact ih acc hacc

/-- If every pixel of `S` generates all of `S` as its component, the raster
scan discovers exactly one component: `S` itself. -/
theorem foldl_compsStep_connected (S : Finset (Nat × Nat)) (l : List (Nat × Nat))
    (hconn : ∀ p ∈ S, component S p = S) :
    (∃ p ∈ l, p ∈ S) → l.foldl (compsStep S) [] = [S] := by
  induction l with
  | nil => rintro ⟨p, hp, _⟩; exact absurd hp (List.not_mem_nil p)
  | cons a t ih =>
    rintro ⟨p, hpl, hpS⟩
    by_cases haS : a ∈ S
    · have hstep : compsStep S [] a = [S] := by
        unfold compsStep
        rw [if_pos ⟨haS, by intro C hC; exact absurd hC (List.not_mem_nil C)⟩]
        rw [hconn a haS]
        rfl
      rw [List.foldl_cons, hstep]
      exact foldl_compsStep_skip S t [S] fun q hq => ⟨S, List.mem_singleton_self S, hq⟩
    · have hstep : compsStep S [] a = [] := by
        unfold compsStep
        rw [if_neg]
        intro hc
        exact haS hc.1
      rw [List.foldl_cons, hstep]
      refine ih ⟨p, ?_, hpS⟩
      rcases List.mem_cons.mp hpl with rfl | hpt
      · exact absurd hpS haS
      · exact hpt

/-- A mask whose foreground is a single pixel has exactly one component. -/
theorem compsList_singleton (g : Grid) (p : Nat × Nat) (hfg : fgSet g = {p}) :
    compsList g = [{p}] := by
  have hconn : ∀ q ∈ ({p} : Finset (Nat × Nat)), component {p} q = {p} := by
    intro q hq
    rw [Finset.mem_singleton.mp hq]
    refine Finset.Subset.antisymm (component_subset _ _ (Finset.mem_singleton_self p)) ?_
    intro x hx
    rw [Finset.mem_singleton.mp hx]
    exact mem_component_self _ _ (Finset.mem_singleton_self p)
  have hp : p ∈ fgSet g := hfg ▸ Finset.mem_singleton_self p
  unfold compsList
  rw [hfg]
  exact foldl_compsStep_connected {p} _ hconn
    ⟨p, fgSet_mem_raster g p hp, Finset.mem_singleton_self p⟩

/-- Inside a full rectangle, growing from any seed reaches every pixel whose
L1 distance from the seed is at most the number of steps. -/
theorem rect_reach (w h : Nat) (a b : Nat) (ha : a < w) (hb : b < h) :
    ∀ (m : Nat) (x y : Nat), x < w → y < h →
      (x - a) + (a - x) + ((y - b) + (b - y)) ≤ m →
      (x, y) ∈ growIter (rectSet w h) m {(a, b)} := by
  have habS : (a, b) ∈ rectSet w h := by
    simp [rectSet, Finset.mem_product, ha, hb]
  intro m
  induction m with
  | zero =>
    intro x y hx hy hd
    have hxa : x = a := by omega
    have hyb : y = b := by omega
    rw [hxa, hyb]
    exact Finset.mem_singleton_self _
  | succ k ih =>
    intro x y hx hy hd
    by_cases hk : (x - a) + (a - x) + ((y - b) + (b - y)) ≤ k
    · have hsub : growIter (rectSet w h) k {(a, b)} ⊆ rectSet w h :=
        growIter_subset _ _ (Finset.singleton_subset_iff.mpr habS) k
      rw [growIter_succ]
      exact subset_growOnce _ _ hsub (ih x y hx hy hk)
    · have hxyS : (x, y) ∈ rectSet w h := by
        simp [rectSet, Finset.mem_product, hx, hy]
      have key : ∃ x' y', x' < w ∧ y' < h ∧
          ((x' - a) + (a - x') + ((y' - b) + (b - y')) ≤ k) ∧
          adj4 (x, y) (x', y') := by
        by_cases hxa : x < a
        · refine ⟨x + 1, y, by omega, hy, by omega, ?_⟩
          exact Or.inr ⟨rfl, Or.inr rfl⟩
        · by_cases hxa' : a < x
          · refine ⟨x - 1, y, by omega, hy, by omega, ?_⟩
            exact Or.inr ⟨rfl, Or.inl (show x = x - 1 + 1 by omega)⟩
          · by_cases hyb : y < b
            · refine ⟨x, y + 1, hx, by omega, by omega, ?_⟩
              exact Or.inl ⟨rfl, Or.inr rfl⟩
            · refine ⟨x, y - 1, hx, by omega, by omega, ?_⟩
              exact Or.inl ⟨rfl, Or.inl (show y = y - 1 + 1 by omega)⟩
      obtain ⟨x', y', hx', hy', hdk, hadj⟩ := key
      rw [growIter_succ]
      exact Finset.mem_filter.mpr ⟨hxyS, Or.inr ⟨(x', y'), ih x' y' hx' hy' hdk, hadj⟩⟩

theorem rectSet_card (w h : Nat) : (rectSet w h).card = w * h := by
  simp [rectSet]

/-- Each pixel of a full rectangle generates the whole rectangle as its
connected component. -/
theorem component_rect (w h : Nat) (p : Nat × Nat) (hp : p ∈ rectSet w h) :
    component (rectSet w h) p = rectSet w h := by
  obtain ⟨a, b⟩ := p
  have hmem := Finset.mem_product.mp hp
  have ha : a < w := Finset.mem_range.mp hmem.1
  have hb : b < h := Finset.mem_range.mp hmem.2
  refine Finset.Subset.antisymm (component_subset _ _ hp) ?_
  intro q hq
  obtain ⟨x, y⟩ := q
  have hqmem := Finset.mem_product.mp hq
  have hx : x < w := Finset.mem_range.mp hqmem.1
  have hy : y < h := Finset.mem_range.mp hqmem.2
  unfold component
  rw [rectSet_card]
  refine rect_reach w h a b ha hb (w * h) x y hx hy ?_
  have hwh : w + h ≤ w * h + 2 := by
    cases w with
    | zero => omega
    | succ s =>
      cases h with
      | zero => omega
      | succ t =>
        have he : (s + 1) * (t + 1) = s * t + s + t + 1 := by ring
        omega
  omega

/-- A mask whose foreground is the full rectangle has exactly one component:
the rectangle itself. -/
theorem compsList_rect (g : Grid) (hw : 0 < g.w) (hh : 0 < g.h)
    (hfg : fgSet g = rectSet g.w g.h) : compsList g = [rectSet g.w g.h] := by
  unfold compsList
  rw [hfg]
  refine foldl_compsStep_connected _ _ (fun p hp => component_rect _ _ p hp) ?_
  refine ⟨(0, 0), ?_, ?_⟩
  · rw [mem_rasterPixels]
    exact ⟨hw, hh⟩
  · simp [rectSet, Finset.mem_product, hw, hh]

/-! ## C5: `crop_solar_panel` and the half-open bounding box -/

theorem pixel_ccGrid (w h : Nat) (cc : Finset (Nat × Nat)) (x y : Int) :
    pixel (ccGrid w h cc) x y =
      if 0 ≤ x ∧ x < (w : Int) ∧ 0 ≤ y ∧ y < (h : Int) ∧ (x.toNat, y.toNat) ∈ cc
      then 255 else 0 := by
  unfold ccGrid
  rw [pixel_ofFn]
  by_cases hb : 0 ≤ x ∧ x < (w : Int) ∧ 0 ≤ y ∧ y < (h : Int)
  · rw [if_pos hb]
    by_cases hm : (x.toNat, y.toNat) ∈ cc
    · rw [if_pos ⟨hb.1, hb.2.2.1, hm⟩, if_pos ⟨hb.1, hb.2.1, hb.2.2.1, hb.2.2.2, hm⟩]
    · rw [if_neg (by intro hc; exact hm hc.2.2), if_neg (by intro hc; exact hm hc.2.2.2.2)]
  · rw [if_neg hb, if_neg (by intro hc; exact hb ⟨hc.1, hc.2.1, hc.2.2.1, hc.2.2.2.1⟩)]

/-- The property stated by the amended C5: `crop_solar_panel` crops image and
component mask to the half-open window `[x_min, x_max) × [y_min, y_max)` of
the largest component's coordinate extremes (the minimal enclosing rectangle
minus its last row and column), with the cropped mask's foreground being
exactly the component's pixels inside that window. -/
def croppedToHalfOpenBBox (image mask : Grid) : Prop :=
  (∀ p ∈ largestCC mask,
      minFst (largestCC mask) ≤ p.1 ∧
      p.1 ≤ maxFst (largestCC mask) ∧
      minSnd (largestCC mask) ≤ p.2 ∧
      p.2 ≤ maxSnd (largestCC mask)) ∧
  (∃ p ∈ largestCC mask,
      p.1 = minFst (largestCC mask)) ∧
  (∃ p ∈ largestCC mask,
      p.1 = maxFst (largestCC mask)) ∧
  (∃ p ∈ largestCC mask,
      p.2 = minSnd (largestCC mask)) ∧
  (∃ p ∈ largestCC mask,
      p.2 = maxSnd (largestCC mask)) ∧
  (crop_solar_panel image mask).2.w =
      maxFst (largestCC mask) -
        minFst (largestCC mask) ∧
  (crop_solar_panel image mask).2.h =
      maxSnd (largestCC mask) -
        minSnd (largestCC mask) ∧
  (crop_solar_panel image mask).1.w = (crop_solar_panel image mask).2.w ∧
  (crop_solar_panel image mask).1.h = (crop_solar_panel image mask).2.h ∧
  (∀ X Y : Int,
    pixel (crop_solar_panel image mask).2 X Y = 255 ↔
      0 ≤ X ∧ X + minFst (largestCC mask) <
          (maxFst (largestCC mask) : Int) ∧
        0 ≤ Y ∧ Y + minSnd (largestCC mask) <
          (maxSnd (largestCC mask) : Int) ∧
        ((X + minFst (largestCC mask)).toNat,
         (Y + minSnd (largestCC mask)).toNat) ∈
          largestCC mask) ∧
  (∀ X Y : Int,
    0 ≤ X → X + minFst (largestCC mask) <
        (maxFst (largestCC mask) : Int) →
    0 ≤ Y → Y + minSnd (largestCC mask) <
        (maxSnd (largestCC mask) : Int) →
    pixel (crop_solar_panel image mask).1 X Y =
      pixel image (X + minFst (largestCC mask))
        (Y + minSnd (largestCC mask)))

/-- **C5** (amended).  For every source mask with at least one foreground
pixel, `crop_solar_panel` crops image and component-only mask to the
*half-open* window `[x_min, x_max) × [y_min, y_max)` of the largest
component's coordinate extremes — i.e. the minimal enclosing rectangle minus
its last row and column (`image.crop` and the numpy slice both exclude the
`max` coordinates) — with the returned mask's foreground being exactly the
component's pixels inside that window. -/
theorem claim_C5_amended (image mask : Grid) (hfg : fgSet mask ≠ ∅) :
    croppedToHalfOpenBBox image mask := by
  have hnil : compsList mask ≠ [] := compsList_ne_nil mask hfg
  have hsz : patchSizes mask ≠ [] := by simpa [patchSizes] using hnil
  have hlt : argmaxIdx (patchSizes mask) < (patchSizes mask).length := (argmaxIdx_spec _ hsz).1
  have hlt' : largestPatchLabel mask - 1 < (compsList mask).length := by
    simp only [largestPatchLabel, Nat.add_sub_cancel]
    simpa [patchSizes] using hlt
  have hmem : largestCC mask ∈ compsList mask := by
    unfold largestCC
    rw [List.getD_eq_getElem _ ∅ hlt']
    exact List.getElem_mem hlt'
  obtain ⟨hccne, hccsub⟩ := compsList_sound mask _ hmem
  have hbound : ∀ p ∈ largestCC mask,
      p.1 < mask.w ∧ p.2 < mask.h := by
    intro p hp
    have h1 := Finset.mem_filter.mp (hccsub hp)
    have h2 := Finset.mem_product.mp h1.1
    exact ⟨Finset.mem_range.mp h2.1, Finset.mem_range.mp h2.2⟩
  have hempty : ¬ ((compsList mask).isEmpty = true) := by
    rw [List.isEmpty_iff]
    exact hnil
  unfold croppedToHalfOpenBBox
  generalize hccdef : largestCC mask = cc
    at hccne hccsub hbound ⊢
  have heq : crop_solar_panel image mask =
      (cropG (minFst cc) (minSnd cc) (maxFst cc) (maxSnd cc) image,
       cropG (minFst cc) (minSnd cc) (maxFst cc) (maxSnd cc) (ccGrid mask.w mask.h cc)) := by
    unfold crop_solar_panel
    rw [if_neg hempty, hccdef]
  have hccne2 := hccne
  obtain ⟨q, hq⟩ := hccne2
  have hx01 : minFst cc ≤ maxFst cc := le_trans (minFst_le cc q hq) (le_maxFst cc q hq)
  have hy01 : minSnd cc ≤ maxSnd cc := le_trans (minSnd_le cc q hq) (le_maxSnd cc q hq)
  refine ⟨fun p hp => ⟨minFst_le cc p hp, le_maxFst cc p hp, minSnd_le cc p hp, le_maxSnd cc p hp⟩,
    minFst_mem cc hccne, maxFst_mem cc hccne, minSnd_mem cc hccne, maxSnd_mem cc hccne,
    ?_, ?_, ?_, ?_, ?_, ?_⟩
  · rw [heq]
    show ((maxFst cc : Int) - (minFst cc : Int)).toNat = maxFst cc - minFst cc
    omega
  · rw [heq]
    show ((maxSnd cc : Int) - (minSnd cc : Int)).toNat = maxSnd cc - minSnd cc
    omega
  · rw [heq]
    rfl
  · rw [heq]
    rfl
  · intro X Y
    rw [heq]
    show pixel (cropG (minFst cc) (minSnd cc) (maxFst cc) (maxSnd cc)
      (ccGrid mask.w mask.h cc)) X Y = 255 ↔ _
    unfold cropG
    rw [pixel_ofFn, pixel_ccGrid]
    constructor
    · intro h255
      split at h255
      · rename_i hwin
        split at h255
        · rename_i hin
          have hmem' := hin.2.2.2.2
          refine ⟨hwin.1, ?_, hwin.2.2.1, ?_, hmem'⟩
          · omega
          · omega
        · exact absurd h255 (by omega)
      · exact absurd h255 (by omega)
    · rintro ⟨hX0, hX1, hY0, hY1, hmem'⟩
      have hb := hbound _ hmem'
      rw [if_pos ⟨hX0, by omega, hY0, by omega⟩,
        if_pos ⟨by omega, by omega, by omega, by omega, hmem'⟩]
  · intro X Y hX0 hX1 hY0 hY1
    rw [heq]
    show pixel (cropG (minFst cc) (minSnd cc) (maxFst cc) (maxSnd cc) image) X Y = _
    unfold cropG
    rw [pixel_ofFn, if_pos ⟨hX0, by omega, hY0, by omega⟩]

/-- Witness for the amended C5 at a 2×2 all-white mask (single 2×2 component:
extremes `x ∈ [0, 1]`, `y ∈ [0, 1]`, so the returned crop is 1×1). -/
theorem claim_C5_witness :
    fgSet (allWhite 2 2) ≠ ∅ ∧ croppedToHalfOpenBBox (allWhite 2 2) (allWhite 2 2) :=
  ⟨by decide, claim_C5_amended (allWhite 2 2) (allWhite 2 2) (by decide)⟩

/-- **C5** (counterexample).  On the 1×1 mask whose single pixel is white, the
largest component is that pixel, whose minimal enclosing rectangle is 1×1 —
but `crop_solar_panel` returns a 0×0 mask with no foreground at all
(`bounding_box = (0, 0, 0, 0)` and both `image.crop` and the numpy slice
exclude the max row/column), so the output is not the component's minimal
axis-aligned enclosing rectangle and its foreground is not the component. -/
theorem claim_C5_counterexample :
    (crop_solar_panel (oneWhite 1 1 0 0) (oneWhite 1 1 0 0)).2.w = 0 ∧
      whiteCount (crop_solar_panel (oneWhite 1 1 0 0) (oneWhite 1 1 0 0)).2 = 0 ∧
      ((compsList (oneWhite 1 1 0 0)).getD
        (largestPatchLabel (oneWhite 1 1 0 0) - 1) ∅).card = 1 := by
  refine ⟨?_, ?_, ?_⟩ <;> decide

/-! ## C3: counting white pixels through the paste pipeline -/

/-- If every white pixel of `gA` reads back (at a fixed offset) as a white
pixel of `gB`, then `gA` has at most as many white pixels. -/
theorem whiteCount_offset_le (gA gB : Grid) (dx dy : Int)
    (hread : ∀ X Y : Int, pixel gA X Y = 255 → pixel gB (X + dx) (Y + dy) = 255) :
    whiteCount gA ≤ whiteCount gB := by
  unfold whiteCount
  refine Finset.card_le_card_of_injOn
    (fun p => (((p.1 : Int) + dx).toNat, ((p.2 : Int) + dy).toNat)) ?_ ?_
  · intro p hp
    have hp' := Finset.mem_filter.mp hp
    have h255 := hp'.2
    have hB := hread _ _ h255
    have hbnd := pixel_eq_255_bounds gB _ _ hB
    refine Finset.mem_filter.mpr ⟨Finset.mem_product.mpr ⟨Finset.mem_range.mpr ?_,
      Finset.mem_range.mpr ?_⟩, ?_⟩
    · show ((p.1 : Int) + dx).toNat < gB.w
      omega
    · show ((p.2 : Int) + dy).toNat < gB.h
      omega
    · have hc1 : ((((p.1 : Int) + dx).toNat : Int)) = (p.1 : Int) + dx := by omega
      have hc2 : ((((p.2 : Int) + dy).toNat : Int)) = (p.2 : Int) + dy := by omega
      rw [hc1, hc2]
      exact hB
  · intro p hp q hq he
    have hp' := Finset.mem_filter.mp hp
    have hq' := Finset.mem_filter.mp hq
    have hbp := pixel_eq_255_bounds gB _ _ (hread _ _ hp'.2)
    have hbq := pixel_eq_255_bounds gB _ _ (hread _ _ hq'.2)
    have h1 := congrArg Prod.fst he
    have h2 := congrArg Prod.snd he
    simp only at h1 h2
    have : p.1 = q.1 := by omega
    have : p.2 = q.2 := by omega
    exact Prod.ext (by omega) (by omega)

theorem cropG_reads (l t r b : Int) (g : Grid) (X Y : Int)
    (h : pixel (cropG l t r b g) X Y = 255) : pixel g (X + l) (Y + t) = 255 := by
  unfold cropG at h
  rw [pixel_ofFn] at h
  split at h
  · exact h
  · exact absurd h (by omega)

theorem padG_reads (l t W H : Nat) (g : Grid) (X Y : Int)
    (h : pixel (padG l t W H g) X Y = 255) :
    pixel g (X + (-(l : Int))) (Y + (-(t : Int))) = 255 := by
  unfold padG at h
  rw [pixel_ofFn] at h
  split at h
  · rw [show X + (-(l : Int)) = X - (l : Int) by ring, show Y + (-(t : Int)) = Y - (t : Int) by ring]
    exact h
  · exact absurd h (by omega)

theorem whiteCount_finalizeG_le (g : Grid) : whiteCount (finalizeG g) ≤ whiteCount g := by
  have h1 : whiteCount (finalizeG g) ≤ whiteCount (cropG 100 100 300 300 g) := by
    unfold finalizeG expandG
    exact whiteCount_offset_le _ _ (-(100 : Int)) (-(100 : Int))
      (fun X Y hr => padG_reads _ _ _ _ _ X Y hr)
  have h2 : whiteCount (cropG 100 100 300 300 g) ≤ whiteCount g :=
    whiteCount_offset_le _ _ 100 100 (fun X Y hr => cropG_reads _ _ _ _ _ X Y hr)
  exact le_trans h1 h2

/-- A paste onto an all-zero target has at most source-area many white
pixels: its whites all lie in the source-sized paste window. -/
theorem whiteCount_pasteSt_cleared (w h : Nat) (src st : Grid) (px py : Int) :
    whiteCount (pasteSt (zeroG w h) src st px py) ≤ src.w * src.h := by
  have hkey : whiteCount (pasteSt (zeroG w h) src st px py) ≤
      ((Finset.range src.w) ×ˢ (Finset.range src.h)).card := by
    unfold whiteCount
    refine Finset.card_le_card_of_injOn
      (fun p => (((p.1 : Int) - px).toNat, ((p.2 : Int) - py).toNat)) ?_ ?_
    · intro p hp
      have hp' := Finset.mem_filter.mp hp
      have h255 := hp'.2
      unfold pasteSt at h255
      rw [pixel_ofFn] at h255
      split at h255
      · rename_i hin
        split at h255
        · rename_i hwin
          refine Finset.mem_product.mpr ⟨Finset.mem_range.mpr ?_, Finset.mem_range.mpr ?_⟩
          · show ((p.1 : Int) - px).toNat < src.w
            omega
          · show ((p.2 : Int) - py).toNat < src.h
            omega
        · rw [show pixel (zeroG w h) (p.1 : Int) (p.2 : Int) = 0 by
            unfold zeroG; rw [pixel_ofFn]; split <;> rfl] at h255
          exact absurd h255 (by omega)
      · exact absurd h255 (by omega)
    · intro p hp q hq he
      have hp' := Finset.mem_filter.mp hp
      have hq' := Finset.mem_filter.mp hq
      have hwp : 0 ≤ (p.1 : Int) - px ∧ 0 ≤ (p.2 : Int) - py := by
        have h255 := hp'.2
        unfold pasteSt at h255
        rw [pixel_ofFn] at h255
        split at h255
        · split at h255
          · rename_i hwin
            exact ⟨hwin.1, hwin.2.2.1⟩
          · rw [show pixel (zeroG w h) (p.1 : Int) (p.2 : Int) = 0 by
              unfold zeroG; rw [pixel_ofFn]; split <;> rfl] at h255
            exact absurd h255 (by omega)
        · exact absurd h255 (by omega)
      have hwq : 0 ≤ (q.1 : Int) - px ∧ 0 ≤ (q.2 : Int) - py := by
        have h255 := hq'.2
        unfold pasteSt at h255
        rw [pixel_ofFn] at h255
        split at h255
        · split at h255
          · rename_i hwin
            exact ⟨hwin.1, hwin.2.2.1⟩
          · rw [show pixel (zeroG w h) (q.1 : Int) (q.2 : Int) = 0 by
              unfold zeroG; rw [pixel_ofFn]; split <;> rfl] at h255
            exact absurd h255 (by omega)
        · exact absurd h255 (by omega)
      have h1 := congrArg Prod.fst he
      have h2 := congrArg Prod.snd he
      simp only at h1 h2
      exact Prod.ext (by omega) (by omega)
  calc whiteCount (pasteSt (zeroG w h) src st px py) ≤
      ((Finset.range src.w) ×ˢ (Finset.range src.h)).card := hkey
    _ = src.w * src.h := by rw [Finset.card_product, Finset.card_range, Finset.card_range]

/-- **C3** (amended).  The foreground count of the compositor's output mask is
bounded by the area of the placement bounding box *provided* the transformed
patch mask is no larger than the box on each axis.  (The claim's reasoning —
that the clamped paste position keeps the patch inside the box — fails in
general: the clamp uses the patch's pre-rotation dimensions and, when the
patch is larger than the box, only pins the anchor at the box's top-left
corner, letting the patch overflow; see the counterexample.)  The bound here
comes from the paste window having the stencil's dimensions and the target
mask having been cleared before the paste. -/
theorem claim_C3_amended (srcImg srcMask tImg tMask : Grid) (mr : ModRand)
    (transImg transMask : Grid → Grid)
    (h : (modify_images srcImg srcMask tImg tMask mr transImg transMask).toOption.isSome = true)
    (c : Int × Int) (x0 y0 x1 y1 : Int)
    (hfr : find_random_white_patch (binarizeNZ tMask) MIN_PIXEL_COUNT mr.frwp =
      .ok (c, (x0, y0, x1, y1)))
    (hw : ((transMask (crop_solar_panel srcImg (binarizeNZ srcMask)).2).w : Int) ≤ x1 - x0)
    (hh : ((transMask (crop_solar_panel srcImg (binarizeNZ srcMask)).2).h : Int) ≤ y1 - y0) :
    (whiteCount (((modify_images srcImg srcMask tImg tMask mr transImg transMask).toOption.get h).2) : Int)
      ≤ (x1 - x0) * (y1 - y0) := by
  cases hcore : modify_core srcImg srcMask tImg tMask mr transImg transMask with
  | error e =>
    rw [modify_images, hcore] at h
    exact absurd h (by simp [Except.map, Except.toOption])
  | ok p =>
    have hval : ((modify_images srcImg srcMask tImg tMask mr transImg transMask).toOption.get h) =
        (finalizeG p.1, finalizeG p.2) := by
      simp [modify_images, hcore, Except.map, Except.toOption]
    rw [hval]
    unfold modify_core at hcore
    split at hcore
    · exact absurd hcore (by simp)
    · rw [hfr] at hcore
      have hp := Except.ok.inj hcore
      have hmask : p.2 = (paste_solar_panel tImg
          (maskOutsideBox (binarizeNZ tMask) (x0, y0, x1, y1))
          (crop_solar_panel srcImg (binarizeNZ srcMask)).1
          (crop_solar_panel srcImg (binarizeNZ srcMask)).2
          (x0, y0, x1, y1) mr.paste transImg transMask).2 := by
        rw [← hp]
      rw [hmask]
      unfold paste_solar_panel
      dsimp only
      refine le_trans (Nat.cast_le.mpr (le_trans (whiteCount_finalizeG_le _)
        (whiteCount_pasteSt_cleared _ _ _ _ _ _))) ?_
      simp only [ofFn_w, ofFn_h]
      push_cast
      refine mul_le_mul hw hh (Int.natCast_nonneg _) (le_trans (Int.natCast_nonneg _) hw)

/-- Witness for the amended C3: a 3×3 all-white source (2×2 crop) pasted into
the synthetic 60×60 fallback box of an 8×8 target with one foreground pixel;
the patch fits the box on both axes. -/
theorem claim_C3_witness :
    (modify_images (allWhite 3 3) (allWhite 3 3) (allWhite 8 8) (oneWhite 8 8 0 0)
        ⟨⟨0, 0, 0⟩, ⟨0, 0⟩⟩ id id).toOption.isSome = true ∧
      find_random_white_patch (binarizeNZ (oneWhite 8 8 0 0)) MIN_PIXEL_COUNT
        (⟨0, 0, 0⟩ : FrwpRand) = .ok ((-96, -96), (-126, -126, -66, -66)) ∧
      ((id (crop_solar_panel (allWhite 3 3) (binarizeNZ (allWhite 3 3))).2).w : Int) ≤
        -66 - (-126) ∧
      ((id (crop_solar_panel (allWhite 3 3) (binarizeNZ (allWhite 3 3))).2).h : Int) ≤
        -66 - (-126) ∧
      (whiteCount (((modify_images (allWhite 3 3) (allWhite 3 3) (allWhite 8 8) (oneWhite 8 8 0 0)
          ⟨⟨0, 0, 0⟩, ⟨0, 0⟩⟩ id id).toOption.get (by rfl)).2) : Int) ≤
        (-66 - (-126)) * (-66 - (-126)) :=
  ⟨by rfl, by rfl, by decide, by decide,
    claim_C3_amended (allWhite 3 3) (allWhite 3 3) (allWhite 8 8) (oneWhite 8 8 0 0)
      ⟨⟨0, 0, 0⟩, ⟨0, 0⟩⟩ id id (by rfl) (-96, -96) (-126) (-126) (-66) (-66)
      (by rfl) (by decide) (by decide)⟩

/-! ## Helper lemmas for the concrete compositor runs -/

theorem sumGrid_oneWhite_ne (w h px py : Nat) (hx : px < w) (hy : py < h) :
    sumGrid (oneWhite w h px py) ≠ 0 := by
  intro hz
  have hmem : ((px, py) : Nat × Nat) ∈ (Finset.range w) ×ˢ (Finset.range h) :=
    Finset.mem_product.mpr ⟨Finset.mem_range.mpr hx, Finset.mem_range.mpr hy⟩
  have h0 := (sumGrid_eq_zero_iff _).mp hz (px, py) hmem
  rw [show pixel (oneWhite w h px py) (px : Int) (py : Int) = 255 by
    unfold oneWhite
    rw [pixel_ofFn, if_pos ⟨Int.natCast_nonneg _, by exact_mod_cast hx, Int.natCast_nonneg _,
      by exact_mod_cast hy⟩, if_pos ⟨rfl, rfl⟩]] at h0
  exact absurd h0 (by omega)

theorem argmaxIdx_singleton (n : Nat) : argmaxIdx [n] = 0 := by
  unfold argmaxIdx
  rw [List.findIdx_cons]
  have : ([n].all fun u => u ≤ n) = true := by
    simp [List.all_eq_true]
  rw [this]
  rfl

theorem image_fst_rectSet (w h : Nat) (hh : 0 < h) :
    (rectSet w h).image Prod.fst = Finset.range w := by
  ext a
  simp only [rectSet, Finset.mem_image, Finset.mem_product, Finset.mem_range]
  constructor
  · rintro ⟨p, ⟨hp1, _⟩, rfl⟩
    exact hp1
  · intro ha
    exact ⟨(a, 0), ⟨ha, hh⟩, rfl⟩

theorem image_snd_rectSet (w h : Nat) (hw : 0 < w) :
    (rectSet w h).image Prod.snd = Finset.range h := by
  ext b
  simp only [rectSet, Finset.mem_image, Finset.mem_product, Finset.mem_range]
  constructor
  · rintro ⟨p, ⟨_, hp2⟩, rfl⟩
    exact hp2
  · intro hb
    exact ⟨(0, b), ⟨hw, hb⟩, rfl⟩

theorem min_range_eq (w : Nat) (hw : 0 < w) :
    (Finset.range w).min' ⟨0, Finset.mem_range.mpr hw⟩ = 0 := by
  refine le_antisymm (Finset.min'_le _ _ (Finset.mem_range.mpr hw)) (Nat.zero_le _)

theorem max_range_eq (w : Nat) (hw : 0 < w) :
    (Finset.range w).max' ⟨0, Finset.mem_range.mpr hw⟩ = w - 1 := by
  refine le_antisymm ?_ (Finset.le_max' _ _ (Finset.mem_range.mpr (by omega)))
  refine Finset.max'_le _ _ _ ?_
  intro y hy
  have := Finset.mem_range.mp hy
  omega

theorem minFst_rectSet (w h : Nat) (hw : 0 < w) (hh : 0 < h) :
    minFst (rectSet w h) = 0 := by
  unfold minFst
  rw [dif_pos (by rw [image_fst_rectSet w h hh]; exact ⟨0, Finset.mem_range.mpr hw⟩)]
  have hcongr : ((rectSet w h).image Prod.fst) = Finset.range w := image_fst_rectSet w h hh
  rw [show ∀ (s : Finset Nat) (hs : s.Nonempty) (hse : s = Finset.range w),
      s.min' hs = (Finset.range w).min' (hse ▸ hs) by rintro s hs rfl; rfl]
  · exact min_range_eq w hw
  · exact hcongr

theorem maxFst_rectSet (w h : Nat) (hw : 0 < w) (hh : 0 < h) :
    maxFst (rectSet w h) = w - 1 := by
  unfold maxFst
  rw [dif_pos (by rw [image_fst_rectSet w h hh]; exact ⟨0, Finset.mem_range.mpr hw⟩)]
  rw [show ∀ (s : Finset Nat) (hs : s.Nonempty) (hse : s = Finset.range w),
      s.max' hs = (Finset.range w).max' (hse ▸ hs) by rintro s hs rfl; rfl]
  · exact max_range_eq w hw
  · exact image_fst_rectSet w h hh

theorem minSnd_rectSet (w h : Nat) (hw : 0 < w) (hh : 0 < h) :
    minSnd (rectSet w h) = 0 := by
  unfold minSnd
  rw [dif_pos (by rw [image_snd_rectSet w h hw]; exact ⟨0, Finset.mem_range.mpr hh⟩)]
  rw [show ∀ (s : Finset Nat) (hs : s.Nonempty) (hse : s = Finset.range h),
      s.min' hs = (Finset.range h).min' (hse ▸ hs) by rintro s hs rfl; rfl]
  · exact min_range_eq h hh
  · exact image_snd_rectSet w h hw

theorem maxSnd_rectSet (w h : Nat) (hw : 0 < w) (hh : 0 < h) :
    maxSnd (rectSet w h) = h - 1 := by
  unfold maxSnd
  rw [dif_pos (by rw [image_snd_rectSet w h hw]; exact ⟨0, Finset.mem_range.mpr hh⟩)]
  rw [show ∀ (s : Finset Nat) (hs : s.Nonempty) (hse : s = Finset.range h),
      s.max' hs = (Finset.range h).max' (hse ▸ hs) by rintro s hs rfl; rfl]
  · exact max_range_eq h hh
  · exact image_snd_rectSet w h hw

/-- The fallback branch of `find_random_white_patch` on a single-component
mask (`num_features <= 1`). -/
theorem frwp_singleton (g : Grid) (p : Nat × Nat) (m : Nat) (r : FrwpRand)
    (hfg : fgSet g = {p}) :
    find_random_white_patch g m r =
      .ok (((g.w : Int) / 2 - 100 + r.cx % 201, (g.h : Int) / 2 - 100 + r.cy % 201),
           ((g.w : Int) / 2 - 100 + r.cx % 201 - 30, (g.h : Int) / 2 - 100 + r.cy % 201 - 30,
            (g.w : Int) / 2 - 100 + r.cx % 201 + 30, (g.h : Int) / 2 - 100 + r.cy % 201 + 30)) := by
  unfold find_random_white_patch
  dsimp only
  rw [compsList_singleton g p hfg]
  rw [if_pos (by simp)]

theorem pixel_padG (l t W H : Nat) (g : Grid) (x y : Int) :
    pixel (padG l t W H g) x y =
      if 0 ≤ x ∧ x < (W : Int) ∧ 0 ≤ y ∧ y < (H : Int)
      then pixel g (x - (l : Int)) (y - (t : Int)) else 0 := by
  unfold padG
  rw [pixel_ofFn]

theorem pixel_cropG (l t r b : Int) (g : Grid) (x y : Int) :
    pixel (cropG l t r b g) x y =
      if 0 ≤ x ∧ x < (((r - l).toNat : Nat) : Int) ∧ 0 ≤ y ∧ y < (((b - t).toNat : Nat) : Int)
      then pixel g (x + l) (y + t) else 0 := by
  unfold cropG
  rw [pixel_ofFn]

theorem pixel_pasteSt (tgt src st : Grid) (px py x y : Int) :
    pixel (pasteSt tgt src st px py) x y =
      if 0 ≤ x ∧ x < (tgt.w : Int) ∧ 0 ≤ y ∧ y < (tgt.h : Int) then
        (if 0 ≤ x - px ∧ x - px < (src.w : Int) ∧ 0 ≤ y - py ∧ y - py < (src.h : Int)
            ∧ pixel st (x - px) (y - py) = 255
         then pixel src (x - px) (y - py) else pixel tgt x y)
      else 0 := by
  unfold pasteSt
  rw [pixel_ofFn]

theorem pixel_finalizeG (g : Grid) (x y : Int) :
    pixel (finalizeG g) x y =
      if 100 ≤ x ∧ x < 300 ∧ 100 ≤ y ∧ y < 300 then pixel g x y else 0 := by
  unfold finalizeG expandG
  rw [pixel_padG, pixel_cropG]
  have hw : ((cropG 100 100 300 300 g).w + 2 * 100 : Nat) = 400 := rfl
  have hh : ((cropG 100 100 300 300 g).h + 2 * 100 : Nat) = 400 := rfl
  rw [hw, hh]
  have h200 : (((300 - 100 : Int).toNat : Nat) : Int) = 200 := rfl
  rw [h200]
  push_cast
  have hargx : x - 100 + 100 = x := by ring
  have hargy : y - 100 + 100 = y := by ring
  rw [hargx, hargy]
  split_ifs <;> first | rfl | omega

/-- A grid whose white pixels are exactly an axis-aligned half-open rectangle
has exactly the rectangle's area many white pixels. -/
theorem whiteCount_rect (g : Grid) (a0 a1 b0 b1 : Nat) (ha1 : a1 ≤ g.w) (hb1 : b1 ≤ g.h)
    (hchar : ∀ x y : Int, pixel g x y = 255 ↔
      ((a0 : Int) ≤ x ∧ x < (a1 : Int) ∧ (b0 : Int) ≤ y ∧ y < (b1 : Int))) :
    whiteCount g = (a1 - a0) * (b1 - b0) := by
  unfold whiteCount
  have hset : ((Finset.range g.w) ×ˢ (Finset.range g.h)).filter
      (fun p => pixel g (p.1 : Int) (p.2 : Int) = 255) =
      (Finset.Ico a0 a1) ×ˢ (Finset.Ico b0 b1) := by
    ext p
    simp only [Finset.mem_filter, Finset.mem_product, Finset.mem_range, Finset.mem_Ico]
    constructor
    · rintro ⟨⟨h1, h2⟩, h255⟩
      have := (hchar _ _).mp h255
      constructor
      · constructor <;> omega
      · constructor <;> omega
    · rintro ⟨⟨h1, h2⟩, ⟨h3, h4⟩⟩
      refine ⟨⟨by omega, by omega⟩, (hchar _ _).mpr ?_⟩
      refine ⟨by omega, by omega, by omega, by omega⟩
  rw [hset, Finset.card_product, Nat.card_Ico, Nat.card_Ico]

/-! ## The C3 counterexample fixture: a 70×70 all-white source patch pasted
into the synthetic 60×60 fallback box of a 400×400 target whose mask has a
single foreground pixel. -/

/-- C3 fixture: source image and mask (one 70×70 all-white component). -/
def srcC3 : Grid := allWhite 70 70

/-- C3 fixture: target image. -/
def tgtImgC3 : Grid := zeroG 400 400

/-- C3 fixture: target mask with a single foreground pixel at (200, 200). -/
def tgtMaskC3 : Grid := oneWhite 400 400 200 200

/-- C3 fixture random draws: fallback center (200, 200) (seeds 100 → `100 %
201 = 100`, start `400/2 - 100 = 100`), paste jitter 0 (seeds 25 → `-25 + 25 %
51 = 0`). -/
def mrC3 : ModRand := ⟨⟨100, 100, 0⟩, ⟨25, 25⟩⟩

/-- The placement bounding box selected on the C3 target. -/
def bbC3 : Int × Int × Int × Int := (170, 170, 230, 230)

/-- The paste-stage output of the C3 run. -/
def pasteC3 : Grid × Grid :=
  paste_solar_panel tgtImgC3 (maskOutsideBox (binarizeNZ tgtMaskC3) bbC3)
    (crop_solar_panel srcC3 (binarizeNZ srcC3)).1 (crop_solar_panel srcC3 (binarizeNZ srcC3)).2
    bbC3 mrC3.paste id id

theorem fgSet_tgtC3 : fgSet (binarizeNZ tgtMaskC3) = {(200, 200)} := by
  unfold tgtMaskC3
  rw [fgSet_binarizeNZ]
  exact fgSet_oneWhite 400 400 200 200 (by norm_num) (by norm_num)

theorem frwpC3 : find_random_white_patch (binarizeNZ tgtMaskC3) MIN_PIXEL_COUNT mrC3.frwp =
    .ok ((200, 200), bbC3) := by
  rw [frwp_singleton (binarizeNZ tgtMaskC3) (200, 200) MIN_PIXEL_COUNT mrC3.frwp fgSet_tgtC3]
  have hW : ((binarizeNZ tgtMaskC3).w : Int) = 400 := rfl
  have hH : ((binarizeNZ tgtMaskC3).h : Int) = 400 := rfl
  rw [hW, hH]
  unfold mrC3 bbC3
  norm_num

theorem sumC3_ne : sumGrid tgtMaskC3 ≠ 0 := by
  unfold tgtMaskC3
  exact sumGrid_oneWhite_ne 400 400 200 200 (by norm_num) (by norm_num)

theorem modify_core_C3 : modify_core srcC3 srcC3 tgtImgC3 tgtMaskC3 mrC3 id id = .ok pasteC3 := by
  unfold modify_core
  rewrite [if_neg sumC3_ne]
  rewrite [frwpC3]
  rfl

theorem fgSet_srcC3 : fgSet (binarizeNZ srcC3) = rectSet 70 70 := by
  unfold srcC3
  rw [fgSet_binarizeNZ]
  exact fgSet_allWhite 70 70

theorem compsList_srcC3 : compsList (binarizeNZ srcC3) = [rectSet 70 70] :=
  compsList_rect (binarizeNZ srcC3) (by decide) (by decide) fgSet_srcC3

theorem largestCC_of_single (g : Grid) (s : Finset (Nat × Nat))
    (h : compsList g = [s]) : largestCC g = s := by
  unfold largestCC largestPatchLabel patchSizes
  rw [h, List.map_cons, List.map_nil, argmaxIdx_singleton]
  rfl

theorem crop_of_single (image mask : Grid) (s : Finset (Nat × Nat))
    (h : compsList mask = [s]) :
    crop_solar_panel image mask =
      (cropG (minFst s) (minSnd s) (maxFst s) (maxSnd s) image,
       cropG (minFst s) (minSnd s) (maxFst s) (maxSnd s) (ccGrid mask.w mask.h s)) := by
  have hcc : largestCC mask = s := largestCC_of_single mask s h
  unfold crop_solar_panel
  rw [h, hcc, List.isEmpty_cons]
  simp only [Bool.false_eq_true, if_false]

theorem cropC3 : crop_solar_panel srcC3 (binarizeNZ srcC3) =
    (cropG 0 0 69 69 srcC3, cropG 0 0 69 69 (ccGrid 70 70 (rectSet 70 70))) := by
  rewrite [crop_of_single srcC3 (binarizeNZ srcC3) (rectSet 70 70) compsList_srcC3]
  rewrite [minFst_rectSet 70 70 (by norm_num) (by norm_num),
      maxFst_rectSet 70 70 (by norm_num) (by norm_num),
      minSnd_rectSet 70 70 (by norm_num) (by norm_num),
      maxSnd_rectSet 70 70 (by norm_num) (by norm_num)]
  exact rfl

theorem pixel_ccGrid_rect (w h : Nat) (x y : Int) :
    pixel (ccGrid w h (rectSet w h)) x y =
      if 0 ≤ x ∧ x < (w : Int) ∧ 0 ≤ y ∧ y < (h : Int) then 255 else 0 := by
  rw [pixel_ccGrid]
  by_cases hb : 0 ≤ x ∧ x < (w : Int) ∧ 0 ≤ y ∧ y < (h : Int)
  · rw [if_pos hb, if_pos ⟨hb.1, hb.2.1, hb.2.2.1, hb.2.2.2, by
      simp only [rectSet, Finset.mem_product, Finset.mem_range]
      omega⟩]
  · rw [if_neg hb, if_neg (by intro hc; exact hb ⟨hc.1, hc.2.1, hc.2.2.1, hc.2.2.2.1⟩)]


/-! ## The C3 counterexample run: the 69×69 patch cropped from a 70×70 source
overflows the 60×60 synthetic fallback box, so the output mask's foreground
(4761 pixels) exceeds the box's area (3600). -/

/-- The binarized paste stencil of the C3 run (the thresholded patch mask). -/
def stC3 : Grid :=
  ofFn 69 69 fun x y =>
    if 50 < pixel (cropG 0 0 69 69 (ccGrid 70 70 (rectSet 70 70))) x y then 255 else 0

theorem pixel_zeroG (w h : Nat) (x y : Int) : pixel (zeroG w h) x y = 0 := by
  unfold zeroG
  rw [pixel_ofFn]
  split <;> rfl

theorem pasteC3_snd : pasteC3.2 = pasteSt (zeroG 400 400) stC3 stC3 170 170 := by
  unfold pasteC3
  rewrite [cropC3]
  rfl

theorem pixel_stC3 (x y : Int) :
    pixel stC3 x y = if 0 ≤ x ∧ x < 69 ∧ 0 ≤ y ∧ y < 69 then 255 else 0 := by
  unfold stC3
  rw [pixel_ofFn, pixel_cropG, pixel_ccGrid_rect]
  norm_num
  split_ifs <;> omega

theorem pixel_outC3 (x y : Int) :
    pixel (finalizeG pasteC3.2) x y =
      if 170 ≤ x ∧ x < 239 ∧ 170 ≤ y ∧ y < 239 then 255 else 0 := by
  rw [pixel_finalizeG, pasteC3_snd, pixel_pasteSt, pixel_stC3]
  rw [show ((zeroG 400 400).w : Int) = 400 from rfl,
      show ((zeroG 400 400).h : Int) = 400 from rfl,
      show ((stC3.w : Nat) : Int) = 69 from rfl,
      show ((stC3.h : Nat) : Int) = 69 from rfl,
      pixel_zeroG]
  split_ifs <;> omega

theorem whiteCountC3 : whiteCount (finalizeG pasteC3.2) = 4761 := by
  have h := whiteCount_rect (finalizeG pasteC3.2) 170 239 170 239
    (by rw [show (finalizeG pasteC3.2).w = 400 from rfl]; norm_num)
    (by rw [show (finalizeG pasteC3.2).h = 400 from rfl]; norm_num)
    (by
      intro x y
      rw [pixel_outC3]
      by_cases hc : 170 ≤ x ∧ x < 239 ∧ 170 ≤ y ∧ y < 239
      · rw [if_pos hc]
        push_cast
        exact ⟨fun _ => hc, fun _ => trivial⟩
      · rw [if_neg hc]
        push_cast
        exact ⟨fun h => absurd h (by norm_num), fun hb => absurd hb hc⟩)
  rw [h]

theorem modify_images_C3 : modify_images srcC3 srcC3 tgtImgC3 tgtMaskC3 mrC3 id id =
    .ok (finalizeG pasteC3.1, finalizeG pasteC3.2) := by
  unfold modify_images
  rewrite [modify_core_C3]
  rfl

/-- **C3** (counterexample).  An accepted run (target mask has foreground)
whose placement bounding box is the synthetic 60×60 fallback (area 3600) but
whose returned mask has 4761 foreground pixels: the clamp uses the patch's
pre-rotation dimensions and, the 69×69 patch being wider than the box, merely
pins the anchor at the box's top-left corner, letting the patch overflow. -/
theorem claim_C3_counterexample :
    find_random_white_patch (binarizeNZ tgtMaskC3) MIN_PIXEL_COUNT mrC3.frwp =
      .ok ((200, 200), (170, 170, 230, 230)) ∧
    (modify_images srcC3 srcC3 tgtImgC3 tgtMaskC3 mrC3 id id).toOption.map
      (fun p => whiteCount p.2) = some 4761 ∧
    ¬ ((4761 : Int) ≤ (230 - 170) * (230 - 170)) := by
  refine ⟨?_, ?_, by norm_num⟩
  · rewrite [frwpC3]
    rfl
  · rewrite [modify_images_C3]
    rewrite [show ((Except.ok (finalizeG pasteC3.1, finalizeG pasteC3.2) :
        Except Err (Grid × Grid)).toOption.map fun p => whiteCount p.2) =
        some (whiteCount (finalizeG pasteC3.2)) from rfl]
    rewrite [whiteCountC3]
    rfl

/-! ## C4: the fixed-coordinate final crop/re-pad versus the spec's central
crop/re-pad -/

theorem specCentralRepad_w (g : Grid) : (specCentralRepad g).w = g.w := rfl

theorem specCentralRepad_h (g : Grid) : (specCentralRepad g).h = g.h := rfl

/-- On a 400×400 canvas the code's fixed `(100, 100, 300, 300)` crop plus
100-pixel border coincides with the spec's central 200×200 crop re-padded to
the canvas size. -/
theorem finalizeG_eq_specCentralRepad (g : Grid) (hw : g.w = 400) (hh : g.h = 400) :
    finalizeG g = specCentralRepad g := by
  unfold finalizeG expandG specCentralRepad
  rw [hw, hh, show (cropG 100 100 300 300 g).w = 200 from rfl,
      show (cropG 100 100 300 300 g).h = 200 from rfl]
  norm_num

/-- The compositor's paste stage keeps the target image's and target mask's
dimensions. -/
theorem modify_core_dims (srcImg srcMask tImg tMask : Grid) (mr : ModRand)
    (transImg transMask : Grid → Grid) (p : Grid × Grid)
    (hcore : modify_core srcImg srcMask tImg tMask mr transImg transMask = .ok p) :
    p.1.w = tImg.w ∧ p.1.h = tImg.h ∧ p.2.w = tMask.w ∧ p.2.h = tMask.h := by
  unfold modify_core at hcore
  split at hcore
  · exact absurd hcore (by simp)
  · cases hfr : find_random_white_patch (binarizeNZ tMask) MIN_PIXEL_COUNT mr.frwp with
    | error e =>
      rw [hfr] at hcore
      exact absurd hcore (by simp)
    | ok v =>
      obtain ⟨loc, bb⟩ := v
      rw [hfr] at hcore
      have hp := Except.ok.inj hcore
      rw [← hp]
      exact ⟨rfl, rfl, rfl, rfl⟩

/-- **C4** (amended).  The returned pair is the pasted result under the
spec's central crop/re-pad, and the output dimensions equal the target's —
*provided* the target image and mask are 400×400 (the reference deployment).
The claim's universal form fails: the code crops the fixed box
`(100, 100, 300, 300)` and pads a fixed 100-pixel border, so on any other
canvas the output is still 400×400 and differs from the input target's
dimensions; see the counterexample. -/
theorem claim_C4_amended (srcImg srcMask tImg tMask : Grid) (mr : ModRand)
    (transImg transMask : Grid → Grid) (p : Grid × Grid)
    (hcore : modify_core srcImg srcMask tImg tMask mr transImg transMask = .ok p)
    (hiw : tImg.w = 400) (hih : tImg.h = 400) (hmw : tMask.w = 400) (hmh : tMask.h = 400) :
    modify_images srcImg srcMask tImg tMask mr transImg transMask =
      .ok (specCentralRepad p.1, specCentralRepad p.2) ∧
    (specCentralRepad p.1).w = tImg.w ∧ (specCentralRepad p.1).h = tImg.h ∧
    (specCentralRepad p.2).w = tMask.w ∧ (specCentralRepad p.2).h = tMask.h := by
  obtain ⟨h1w, h1h, h2w, h2h⟩ :=
    modify_core_dims srcImg srcMask tImg tMask mr transImg transMask p hcore
  refine ⟨?_, by rw [specCentralRepad_w, h1w], by rw [specCentralRepad_h, h1h],
    by rw [specCentralRepad_w, h2w], by rw [specCentralRepad_h, h2h]⟩
  unfold modify_images
  rw [hcore]
  show (Except.ok (finalizeG p.1, finalizeG p.2) : Except Err (Grid × Grid)) =
    .ok (specCentralRepad p.1, specCentralRepad p.2)
  rw [finalizeG_eq_specCentralRepad p.1 (by rw [h1w, hiw]) (by rw [h1h, hih]),
      finalizeG_eq_specCentralRepad p.2 (by rw [h2w, hmw]) (by rw [h2h, hmh])]

/-- Witness for the amended C4: the concrete 400×400 run of the C3 fixture. -/
theorem claim_C4_witness :
    modify_core srcC3 srcC3 tgtImgC3 tgtMaskC3 mrC3 id id = .ok pasteC3 ∧
    tgtImgC3.w = 400 ∧ tgtImgC3.h = 400 ∧ tgtMaskC3.w = 400 ∧ tgtMaskC3.h = 400 ∧
    (modify_images srcC3 srcC3 tgtImgC3 tgtMaskC3 mrC3 id id =
        .ok (specCentralRepad pasteC3.1, specCentralRepad pasteC3.2) ∧
      (specCentralRepad pasteC3.1).w = tgtImgC3.w ∧
      (specCentralRepad pasteC3.1).h = tgtImgC3.h ∧
      (specCentralRepad pasteC3.2).w = tgtMaskC3.w ∧
      (specCentralRepad pasteC3.2).h = tgtMaskC3.h) :=
  ⟨modify_core_C3, rfl, rfl, rfl, rfl,
    claim_C4_amended srcC3 srcC3 tgtImgC3 tgtMaskC3 mrC3 id id pasteC3 modify_core_C3
      rfl rfl rfl rfl⟩

/-! ## The C4 counterexample run: a 500×400 target still comes back 400×400 -/

/-- C4 counterexample fixture: target image on a 500×400 canvas. -/
def tgtImgC4 : Grid := zeroG 500 400

/-- C4 counterexample fixture: 500×400 target mask with one foreground pixel. -/
def tgtMaskC4 : Grid := oneWhite 500 400 250 200

/-- C4 counterexample random draws (fallback center (250, 200), zero jitter). -/
def mrC4 : ModRand := ⟨⟨100, 100, 0⟩, ⟨25, 25⟩⟩

/-- The placement bounding box selected on the C4 target. -/
def bbC4 : Int × Int × Int × Int := (220, 170, 280, 230)

/-- The paste-stage output of the C4 counterexample run. -/
def pasteC4 : Grid × Grid :=
  paste_solar_panel tgtImgC4 (maskOutsideBox (binarizeNZ tgtMaskC4) bbC4)
    (crop_solar_panel srcC3 (binarizeNZ srcC3)).1 (crop_solar_panel srcC3 (binarizeNZ srcC3)).2
    bbC4 mrC4.paste id id

theorem fgSet_tgtC4 : fgSet (binarizeNZ tgtMaskC4) = {(250, 200)} := by
  unfold tgtMaskC4
  rw [fgSet_binarizeNZ]
  exact fgSet_oneWhite 500 400 250 200 (by norm_num) (by norm_num)

theorem frwpC4 : find_random_white_patch (binarizeNZ tgtMaskC4) MIN_PIXEL_COUNT mrC4.frwp =
    .ok ((250, 200), bbC4) := by
  rw [frwp_singleton (binarizeNZ tgtMaskC4) (250, 200) MIN_PIXEL_COUNT mrC4.frwp fgSet_tgtC4]
  have hW : ((binarizeNZ tgtMaskC4).w : Int) = 500 := rfl
  have hH : ((binarizeNZ tgtMaskC4).h : Int) = 400 := rfl
  rw [hW, hH]
  unfold mrC4 bbC4
  norm_num

theorem sumC4_ne : sumGrid tgtMaskC4 ≠ 0 := by
  unfold tgtMaskC4
  exact sumGrid_oneWhite_ne 500 400 250 200 (by norm_num) (by norm_num)

theorem modify_core_C4run : modify_core srcC3 srcC3 tgtImgC4 tgtMaskC4 mrC4 id id =
    .ok pasteC4 := by
  unfold modify_core
  rewrite [if_neg sumC4_ne]
  rewrite [frwpC4]
  rfl

theorem modify_images_C4run : modify_images srcC3 srcC3 tgtImgC4 tgtMaskC4 mrC4 id id =
    .ok (finalizeG pasteC4.1, finalizeG pasteC4.2) := by
  unfold modify_images
  rewrite [modify_core_C4run]
  rfl

/-- **C4** (counterexample).  An accepted run on a 500×400 target: the claim
says the output dimensions equal the input target's, but the fixed crop and
fixed border always produce a 400×400 output. -/
theorem claim_C4_counterexample :
    sumGrid tgtMaskC4 ≠ 0 ∧
    tgtImgC4.w = 500 ∧ tgtMaskC4.w = 500 ∧
    (modify_images srcC3 srcC3 tgtImgC4 tgtMaskC4 mrC4 id id).toOption.map
      (fun p => (p.1.w, p.1.h, p.2.w, p.2.h)) = some (400, 400, 400, 400) := by
  refine ⟨sumC4_ne, rfl, rfl, ?_⟩
  rewrite [modify_images_C4run]
  rfl
